import Mathlib

/-!
# nautical_neopixel: the light-characteristic interpreter

A shallow embedding of `src/nautical_neopixel.cpp`: the colour resolver, the
duration parser, the group decoder, the pattern parser `parse` and the two
evaluators `flash` and `morse`.

Conventions of the embedding.

* The sketch is built for an AVR board (it includes `avr8-stub.h`), where
  `int` and `unsigned int` are 16 bits wide.  An `int` is an `Int`, an
  `unsigned int` is a `Nat`; every implicit conversion between the two that
  the C expressions perform is written out (`toUnsigned`, `toInt`), and so is
  the wrap-around of unsigned arithmetic.
* Behaviour that C leaves undefined (division by zero, a read outside an
  array, a missing `return`, a signed result outside `int`) is a value of
  `UB`; every function that can reach one returns `Except UB _`.
* A C string is the list of its characters before the terminating NUL; a
  `char *` into it is the suffix it points at.
* An evaluator returns the colour it passes to `strip.setPixelColor` for the
  pixel `led_idx`; the index itself takes no part in the computation of the
  colour.
* The tick counter `count` of an evaluator ranges over all natural numbers;
  the values an `unsigned int` can hold are those below 65536, and the counter
  `loop` holds when `t` milliseconds have been counted is `counterAt t`.
* A floating-point number is an exact fraction, an infinity or a NaN; each
  floating-point operation of the code rounds its exact result to the
  significand of its type, 53 bits for a `double` and 24 bits for a `float`,
  to nearest and to even on a tie.
* The call of `parse` on the pixel strip is `parseOn`; `stripAfter` is the
  strip it leaves, and `parseStore` the buffer of the string it leaves.
-/

namespace NauticalNeopixel

/-- Ways in which an execution leaves the behaviour C defines. -/
inductive UB
  | divByZero
  | outOfBounds
  | noReturn
  | intRange
  deriving DecidableEq, Repr

deriving instance DecidableEq for Except

/-! ## Machine integers (16-bit `int`, 16-bit `unsigned int`) -/

/-- Number of values of an `unsigned int`: `UINT_MAX + 1`. -/
def UINT_SIZE : Nat := 65536

/-- Largest `int`. -/
def INT_MAX : Int := 32767

/-- Smallest `int`. -/
def INT_MIN : Int := -32768

/-- Conversion `int → unsigned int` (value modulo `UINT_MAX + 1`). -/
def toUnsigned (x : Int) : Nat := (x % 65536).toNat

/-- Conversion `unsigned int → int` as the AVR compiler performs it
(two's complement reinterpretation). -/
def toInt (n : Nat) : Int :=
  if n % 65536 < 32768 then ((n % 65536 : Nat) : Int) else ((n % 65536 : Nat) : Int) - 65536

/-- A signed arithmetic result: defined only inside the range of `int`. -/
def checkInt (x : Int) : Except UB Int :=
  if INT_MIN ≤ x ∧ x ≤ INT_MAX then .ok x else .error .intRange

/-! ## Constants of the sketch -/

def FLASH_DURATION : Int := 500
def FLASH_PERIOD : Int := 2000
def QUICK_DURATION : Int := 500
def QUICK_PERIOD : Int := 1000
def VERY_QUICK_DURATION : Int := 250
def VERY_QUICK_PERIOD : Int := 500
def ULTRA_QUICK_DURATION : Int := 125
def ULTRA_QUICK_PERIOD : Int := 250
def LONG_FLASH_DURATION : Int := 2000
def LONG_FLASH_PERIOD : Int := 4000

def MORSE_UNIT : Int := 500
def DOT_TIME : Int := 1 * MORSE_UNIT
def DASH_TIME : Int := 3 * MORSE_UNIT
def SPACE_TIME : Int := 1 * MORSE_UNIT

/-- The Morse table `alpha`, entries `A` to `Z`. -/
def alpha : List (List Char) :=
  [".-".toList, "-...".toList, "-.-.".toList, "-..".toList, ".".toList, "..-.".toList,
   "--.".toList, "....".toList, "..".toList, ".---".toList, "-.-".toList, ".-..".toList,
   "--".toList, "-.".toList, "---".toList, ".--.".toList, "--.-".toList, ".-.".toList,
   "...".toList, "-".toList, "..-".toList, "...-".toList, ".--".toList, "-..-".toList,
   "-.--".toList, "--..".toList]

/-- Modelled from the library: `Adafruit_NeoPixel::Color(r, g, b)` packs three
8-bit components into one 32-bit word, `r << 16 | g << 8 | b`. -/
def Color (r g b : Nat) : Nat := r * 65536 + g * 256 + b

def RED : Nat := Color 255 0 0
def GREEN : Nat := Color 0 255 0
def YELLOW : Nat := Color 255 255 0
def WHITE : Nat := Color 200 200 200
def MAGENTA : Nat := Color 255 0 255
def OFF : Nat := Color 0 0 0

/-! ## Colour resolver -/

/-- The function `charToColor`. -/
def charToColor (ch : Char) : Nat :=
  if ch = 'R' then RED
  else if ch = 'G' then GREEN
  else if ch = 'Y' then YELLOW
  else if ch = 'W' then WHITE
  else MAGENTA

/-! ## Evaluators -/

/-- The function `fixed`: the colour is written as it is. -/
def fixed (_count : Nat) (color : Nat) : Except UB Nat := .ok color

/-- Lines 512-517 of `flash`: the colour chosen from the subframe test and
from the on/off test (`count % sub_period` and the comparison with `on_time`
are unsigned). -/
def activeColor (count : Nat) (subframe group on_time sub_period : Int)
    (on_color off_color : Nat) : Nat :=
  let active_color := if subframe < group then on_color else off_color
  if count % toUnsigned sub_period > toUnsigned on_time then off_color else active_color

/-- The function `flash`.  `count` is the `unsigned int` tick counter, the
other numbers are `int`s. -/
def flash (count : Nat) (on_color off_color : Nat)
    (group1 group2 on_time off_time period : Int) : Except UB Nat :=
  if toUnsigned period = 0 then .error .divByZero else
  let count := count % toUnsigned period
  match checkInt (on_time + off_time) with
  | .error e => .error e
  | .ok sub_period =>
    if toUnsigned sub_period = 0 then .error .divByZero else
    let subframe := toInt (count / toUnsigned sub_period)
    if (count * 2) % UINT_SIZE ≥ toUnsigned period then
      -- second half of the period
      let longFlash : Except UB (Int × Int × Int) :=
        if group2 < 0 then
          (checkInt (-group2)).map fun g =>
            (g, LONG_FLASH_DURATION,
              LONG_FLASH_DURATION + (LONG_FLASH_PERIOD - LONG_FLASH_DURATION))
        else .ok (group2, on_time, sub_period)
      match longFlash with
      | .error e => .error e
      | .ok (group, on_time, sub_period) =>
        if toUnsigned (period.tdiv 2) = 0 then .error .divByZero else
        let count := count % toUnsigned (period.tdiv 2)
        let subframe := toInt (count / toUnsigned sub_period)
        .ok (activeColor count subframe group on_time sub_period on_color off_color)
    else
      .ok (activeColor count subframe group1 on_time sub_period on_color off_color)

/-- The loop of `morse` over the code string; `on_time` is the start of the
window of the current symbol. -/
def morseLoop (count color : Nat) : List Char → Int → Nat
  | [], _ => OFF
  | t :: rest, on_time =>
    let off_time := on_time + (if t = '.' then DOT_TIME else DASH_TIME)
    if toUnsigned on_time ≤ count ∧ count < toUnsigned off_time then color
    else morseLoop count color rest (off_time + SPACE_TIME)

/-- The function `morse`. -/
def morse (count : Nat) (color : Nat) (ch : Char) (period : Int) : Except UB Nat :=
  if toUnsigned period = 0 then .error .divByZero else
  let count := count % toUnsigned period
  let idx : Int := (ch.toNat : Int) - (('A' : Char).toNat : Int)
  if idx < 0 ∨ 26 ≤ idx then .error .outOfBounds else
  .ok (morseLoop count color (alpha.getD idx.toNat []) 0)

/-! ## The tick loop -/

/-- The tick counter `loop` hands to `parse` when `t` milliseconds have been
counted: `global_counter` and `counter` are `unsigned int`s, so that the sums
`global_counter += TICK_PERIOD` and `global_counter + phase_offsets[led_idx]`
are taken modulo 65536. -/
def counterAt (t : Nat) : Nat := t % UINT_SIZE

/-! ## C strings and the C library -/

/-- The terminating character of a C string. -/
def NUL : Char := Char.ofNat 0

/-- The read `str[i]` at an arbitrary index: the characters of the string,
the terminator at index `strlen`, and no defined value beyond it. -/
def rd : List Char → Nat → Except UB Char
  | [], 0 => .ok NUL
  | [], _ + 1 => .error .outOfBounds
  | c :: _, 0 => .ok c
  | _ :: cs, i + 1 => rd cs i

/-- The read `str[i]` where the code guards it: in `a and b` the operand `b`
is evaluated only when `a` holds, and at each use below the guard `a` is a
test that the previous character is a given non-NUL character, so that
`i ≤ strlen` whenever C performs the read. -/
def peek (str : List Char) (i : Nat) : Char := str.getD i NUL

/-- The pointer `str + k`, for a pointer that is dereferenced next. -/
def advance (str : List Char) (k : Nat) : Except UB (List Char) :=
  if k ≤ str.length then .ok (str.drop k) else .error .outOfBounds

/-- Modelled from the C library: `isdigit`. -/
def isdigit (c : Char) : Bool := decide (48 ≤ c.toNat ∧ c.toNat ≤ 57)

/-- Modelled from the C library: `isspace`. -/
def isspace (c : Char) : Bool := decide (c.toNat = 32 ∨ (9 ≤ c.toNat ∧ c.toNat ≤ 13))

/-- Skips leading white space, as `atoi` and `atof` do. -/
def skipSpace : List Char → List Char
  | [] => []
  | c :: cs => if isspace c then skipSpace cs else c :: cs

/-- Reads the longest run of decimal digits at the head of the text:
the accumulated value, the number of digits read, and the rest. -/
def scanDigits : List Char → Nat → Nat → Nat × Nat × List Char
  | [], acc, n => (acc, n, [])
  | c :: cs, acc, n =>
    if isdigit c then scanDigits cs (acc * 10 + (c.toNat - 48)) (n + 1) else (acc, n, c :: cs)

/-- Drops an optional sign; the flag tells whether it was a minus sign. -/
def scanSign (s : List Char) : Bool × List Char :=
  match s with
  | [] => (false, [])
  | c :: cs => if c = '-' then (true, cs) else if c = '+' then (false, cs) else (false, c :: cs)

/-- Modelled from the C library: `atoi` (white space, optional sign, decimal
digits; 0 when there is no digit).  The code applies it to one-digit numbers. -/
def atoi (s : List Char) : Int :=
  let (neg, r) := scanSign (skipSpace s)
  let v : Int := ((scanDigits r 0 0).1 : Nat)
  if neg then -v else v

/-- A finite decimal number, `± mant * 10 ^ exp`. -/
structure Decimal where
  neg : Bool
  mant : Nat
  exp : Int
  deriving DecidableEq, Repr

/-- Modelled from the C library: the decimal form of the number `strtod` and
`atof` read (white space, optional sign, digits with an optional point,
optional exponent; zero when there is no digit), as the exact decimal number
the characters denote. -/
def readDecimal (s : List Char) : Decimal :=
  let (neg, s0) := scanSign (skipSpace s)
  let (m1, n1, s1) := scanDigits s0 0 0
  let (m2, n2, s2) :=
    match s1 with
    | [] => (m1, 0, [])
    | c :: cs => if c = '.' then scanDigits cs m1 0 else (m1, 0, c :: cs)
  if n1 + n2 = 0 then ⟨neg, 0, 0⟩
  else
    let e : Int :=
      match s2 with
      | [] => 0
      | c :: cs =>
        if c = 'e' ∨ c = 'E' then
          let (eneg, t) := scanSign cs
          let (ev, en, _) := scanDigits t 0 0
          if en = 0 then 0 else if eneg then -(ev : Int) else (ev : Int)
        else 0
    ⟨neg, m2, e - (n2 : Int)⟩

/-- The value of a hexadecimal digit. -/
def hexDigit (c : Char) : Option Nat :=
  if 48 ≤ c.toNat ∧ c.toNat ≤ 57 then some (c.toNat - 48)
  else if 97 ≤ c.toNat ∧ c.toNat ≤ 102 then some (c.toNat - 87)
  else if 65 ≤ c.toNat ∧ c.toNat ≤ 70 then some (c.toNat - 55)
  else none

/-- Reads the longest run of hexadecimal digits at the head of the text:
the accumulated value, the number of digits read, and the rest. -/
def scanHex : List Char → Nat → Nat → Nat × Nat × List Char
  | [], acc, n => (acc, n, [])
  | c :: cs, acc, n =>
    match hexDigit c with
    | some v => scanHex cs (acc * 16 + v) (n + 1)
    | none => (acc, n, c :: cs)

/-- Modelled from the C library: the hexadecimal form of the number `strtod`
and `atof` read, after the sign (`0x`, hexadecimal digits with an optional
point, optional binary exponent after `p`): the number is `m * 2 ^ e` for the
result `(m, e)`; `none` when the text has no such form. -/
def readHex (t : List Char) : Option (Nat × Int) :=
  match t with
  | z :: x :: rest =>
    if z = '0' ∧ (x = 'x' ∨ x = 'X') then
      let (m1, n1, s1) := scanHex rest 0 0
      let (m2, n2, s2) :=
        match s1 with
        | [] => (m1, 0, [])
        | c :: cs => if c = '.' then scanHex cs m1 0 else (m1, 0, c :: cs)
      if n1 + n2 = 0 then none
      else
        let e : Int :=
          match s2 with
          | [] => 0
          | c :: cs =>
            if c = 'p' ∨ c = 'P' then
              let (eneg, u) := scanSign cs
              let (ev, en, _) := scanDigits u 0 0
              if en = 0 then 0 else if eneg then -(ev : Int) else (ev : Int)
            else 0
        some (m2, e - 4 * (n2 : Int))
    else none
  | _ => none

/-- The text starts with `inf`, in either case (`INF` and `INFINITY` are the
two spellings of an infinity). -/
def startsInf (t : List Char) : Bool :=
  match t with
  | a :: b :: c :: _ =>
    decide ((a = 'i' ∨ a = 'I') ∧ (b = 'n' ∨ b = 'N') ∧ (c = 'f' ∨ c = 'F'))
  | _ => false

/-- The text starts with `nan`, in either case. -/
def startsNan (t : List Char) : Bool :=
  match t with
  | a :: b :: c :: _ =>
    decide ((a = 'n' ∨ a = 'N') ∧ (b = 'a' ∨ b = 'A') ∧ (c = 'n' ∨ c = 'N'))
  | _ => false

/-- A value of a C floating type: a finite number `± num / den`, an infinity,
or a NaN. -/
inductive FloatValue
  | finite (neg : Bool) (num den : Nat)
  | infinite (neg : Bool)
  | nan
  deriving DecidableEq, Repr

/-- The number of binary digits of `n`, by halving at most `fuel` times. -/
def bitLengthAux : Nat → Nat → Nat
  | 0, _ => 0
  | fuel + 1, n => if n = 0 then 0 else bitLengthAux fuel (n / 2) + 1

/-- The number of binary digits of `n`. -/
def bitLength (n : Nat) : Nat := bitLengthAux n n

/-- The fraction `n / (d * 2 ^ e)`, for an exponent of either sign. -/
def scaleFraction (n d : Nat) (e : Int) : Nat × Nat :=
  if 0 ≤ e then (n, d * 2 ^ e.toNat) else (n * 2 ^ (-e).toNat, d)

/-- The integer nearest to `a / b`, the even one of the two when `a / b` lies
half way between them. -/
def roundHalfEven (a b : Nat) : Nat :=
  if 2 * (a % b) > b ∨ (2 * (a % b) = b ∧ a / b % 2 = 1) then a / b + 1 else a / b

/-- Rounding of the fraction `n / d` to a binary floating-point number with a
significand of `p` bits, to nearest and to even on a tie (the rounding of
IEEE 754 arithmetic): the result is again a fraction.  The range of the
exponent is not limited; where the C types overflow or underflow, the number
stays so large, or so small, that the conversion to `int` at the end of
`aToPeriod` has the same outcome. -/
def roundToBits (p n d : Nat) : Nat × Nat :=
  if n = 0 then (0, 1)
  else
    let e0 : Int := (bitLength n : Int) - (bitLength d : Int) - (p : Int)
    let e : Int :=
      if (scaleFraction n d e0).1 / (scaleFraction n d e0).2 < 2 ^ p then e0 else e0 + 1
    let m := roundHalfEven (scaleFraction n d e).1 (scaleFraction n d e).2
    if 0 ≤ e then (m * 2 ^ e.toNat, 1) else (m, 2 ^ (-e).toNat)

/-- A floating value rounded to a significand of `p` bits: 53 for a `double`,
24 for a `float`. -/
def FloatValue.round (p : Nat) : FloatValue → FloatValue
  | .finite neg n d => .finite neg (roundToBits p n d).1 (roundToBits p n d).2
  | v => v

/-- The exact product of a floating value and a positive whole number. -/
def FloatValue.times (k : Nat) : FloatValue → FloatValue
  | .finite neg n d => .finite neg (n * k) d
  | v => v

/-- The conversion of a floating value to `int`: the fraction is dropped, and
the behaviour is defined only when the whole part is inside the range of
`int`. -/
def FloatValue.toInt : FloatValue → Except UB Int
  | .finite neg n d => checkInt (if neg then -((n / d : Nat) : Int) else ((n / d : Nat) : Int))
  | _ => .error .intRange

/-- The exact value of a decimal number. -/
def Decimal.value (x : Decimal) : FloatValue :=
  if 0 ≤ x.exp then .finite x.neg (x.mant * 10 ^ x.exp.toNat) 1
  else .finite x.neg x.mant (10 ^ (-x.exp).toNat)

/-- Modelled from the C library: `atof`, which is `strtod` without the end
pointer.  After white space and an optional sign it reads an infinity, a NaN,
a hexadecimal or a decimal number (zero when the text has none of these
forms) and returns the `double` nearest to the number read. -/
def atof (s : List Char) : FloatValue :=
  let (neg, t) := scanSign (skipSpace s)
  if startsInf t then .infinite neg
  else if startsNan t then .nan
  else
    match readHex t with
    | some (m, e) =>
      (FloatValue.finite neg (scaleFraction m 1 (-e)).1 (scaleFraction m 1 (-e)).2).round 53
    | none => (readDecimal s).value.round 53

/-! ## Duration parser -/

/-- The text `aToPeriod` leaves in its buffer: a trailing `s` is overwritten
by the terminator. -/
def aToPeriodStore (cstr : List Char) : List Char :=
  let len := cstr.length
  if len > 0 ∧ cstr.getLast? = some 's' then cstr.dropLast else cstr

/-- The function `aToPeriod`: the value it returns.  `float seconds =
atof(cstr)` rounds the `double` to a `float`; `seconds * 1000` is a product of
`float`s, rounded to a `float`; `return` converts it to `int`. -/
def aToPeriod (cstr : List Char) : Except UB Int :=
  let seconds := (atof (aToPeriodStore cstr)).round 24
  ((seconds.times 1000).round 24).toInt

/-! ## Group decoder -/

/-- The function `aToGroups`: the returned character count and the two
output parameters `group1`, `group2`.  Where no branch of the inner chain
matches, the C function ends without a `return` statement. -/
def aToGroups (str : List Char) : Except UB (Nat × Int × Int) :=
  if peek str 0 = '(' ∧ isdigit (peek str 1) then
    if peek str 2 = ')' then
      .ok (4, atoi (str.drop 1), 0)
    else if peek str 2 = '+' ∧ isdigit (peek str 3) ∧ peek str 4 = ')' then
      .ok (6, atoi (str.drop 1), atoi (str.drop 3))
    else if peek str 2 = '+' ∧ peek str 3 = 'L' ∧ peek str 4 = 'F' ∧
        peek str 5 = 'l' ∧ peek str 6 = ')' then
      .ok (8, atoi (str.drop 1), -1)
    else .error .noReturn
  else .ok (0, 1, 0)

/-! ## Pattern parser -/

/-- An evaluator call made by `parse`, with its arguments (without
`count` and `led_idx`, which `parse` passes on unchanged). -/
inductive Call
  | fixed (color : Nat)
  | flash (on_color off_color : Nat) (group1 group2 on_time off_time period : Int)
  | morse (color : Nat) (ch : Char) (period : Int)
  deriving DecidableEq, Repr

/-- Runs the evaluator a `Call` names at the tick counter `count`. -/
def execCall (count : Nat) : Call → Except UB Nat
  | .fixed color => fixed count color
  | .flash on_color off_color group1 group2 on_time off_time period =>
    flash count on_color off_color group1 group2 on_time off_time period
  | .morse color ch period => morse count color ch period

/-- The statements every grouped branch of `parse` repeats:
`str += skip; char_skip = aToGroups(str, group1, group2); str += char_skip;
color = charToColor(str[0]); period = aToPeriod(&str[2]);`.
The result is `(group1, group2, color, period)`. -/
def groupArgs (str : List Char) (skip : Nat) : Except UB (Int × Int × Nat × Int) := do
  let str ← advance str skip
  let (char_skip, group1, group2) ← aToGroups str
  let str ← advance str char_skip
  let c ← rd str 0
  let tail ← advance str 2
  let period ← aToPeriod tail
  pure (group1, group2, charToColor c, period)

/-- The branch selection of `parse`: the evaluator call it makes, or `none`
when it returns without calling an evaluator. -/
def parseCall (str : List Char) : Except UB (Option Call) :=
  let len := str.length
  if len < 2 ∨ len > 30 then .ok none
  else if peek str 0 = 'I' ∧ peek str 1 = 's' ∧ peek str 2 = 'o' then do
    let c ← rd str 4
    let tail ← advance str 6
    let period ← aToPeriod tail
    pure (some (.flash (charToColor c) OFF 1 0 (period.tdiv 2) 0 period))
  else if peek str 0 = 'Q' then
    if peek str 1 = ' ' ∧ peek str 2 ≠ '(' then
      .ok (some (.flash (charToColor (peek str 2)) OFF 1 0 QUICK_DURATION
        (QUICK_PERIOD - QUICK_DURATION) QUICK_PERIOD))
    else do
      let (group1, group2, color, period) ← groupArgs str 2
      pure (some (.flash color OFF group1 group2 QUICK_DURATION
        (QUICK_PERIOD - QUICK_DURATION) period))
  else if peek str 0 = 'V' ∧ peek str 1 = 'Q' then
    if peek str 2 = ' ' ∧ peek str 3 ≠ '(' then
      .ok (some (.flash (charToColor (peek str 3)) OFF 1 0 VERY_QUICK_DURATION
        (VERY_QUICK_PERIOD - VERY_QUICK_DURATION) VERY_QUICK_PERIOD))
    else do
      let (group1, group2, color, period) ← groupArgs str 3
      pure (some (.flash color OFF group1 group2 VERY_QUICK_DURATION
        (VERY_QUICK_PERIOD - VERY_QUICK_DURATION) period))
  else if peek str 0 = 'U' ∧ peek str 1 = 'Q' then
    if peek str 2 = ' ' ∧ peek str 3 ≠ '(' then
      .ok (some (.flash (charToColor (peek str 3)) OFF 1 0 ULTRA_QUICK_DURATION
        (ULTRA_QUICK_PERIOD - ULTRA_QUICK_DURATION) ULTRA_QUICK_PERIOD))
    else do
      let (group1, group2, color, period) ← groupArgs str 3
      pure (some (.flash color OFF group1 group2 ULTRA_QUICK_DURATION
        (ULTRA_QUICK_PERIOD - ULTRA_QUICK_DURATION) period))
  else if peek str 0 = 'F' then
    if peek str 1 = ' ' then
      .ok (some (.fixed (charToColor (peek str 2))))
    else if peek str 1 = 'l' ∧ peek str 2 = ' ' then do
      let (group1, group2, color, period) ← groupArgs str 3
      pure (some (.flash color OFF group1 group2 FLASH_DURATION
        (FLASH_PERIOD - FLASH_DURATION) period))
    else .ok none
  else if peek str 0 = 'L' ∧ peek str 1 = '.' ∧ peek str 2 = 'F' ∧ peek str 3 = 'l' then do
    let (group1, group2, color, period) ← groupArgs str 5
    pure (some (.flash color OFF group1 group2 LONG_FLASH_DURATION
      (LONG_FLASH_PERIOD - LONG_FLASH_DURATION) period))
  else if peek str 0 = 'O' ∧ peek str 1 = 'c' then do
    let (group1, group2, color, period) ← groupArgs str 3
    pure (some (.flash OFF color group1 group2 FLASH_DURATION
      (FLASH_PERIOD - FLASH_DURATION) period))
  else if peek str 0 = 'M' ∧ peek str 1 = 'o' then do
    let c3 ← rd str 3
    if c3 = '(' then
      let c5 ← rd str 5
      if c5 = ')' then
        let ch ← rd str 4
        let str ← advance str 7
        let c ← rd str 0
        let tail ← advance str 2
        let period ← aToPeriod tail
        pure (some (.morse (charToColor c) ch period))
      else pure none
    else pure none
  else .ok none

/-- The function `parse` at the tick counter `count`: the colour written to
the pixel `led_idx`, or `none` when no pixel is written. -/
def parse (count : Nat) (str : List Char) : Except UB (Option Nat) :=
  match parseCall str with
  | .error e => .error e
  | .ok none => .ok none
  | .ok (some call) => (execCall count call).map some

/-! ## Notions of the specification

The definitions of this section are not translations of code: they give a
precise form to the words the specification uses (a flash as a maximal run
of lit positions, a decimal numeral, the text of a group qualifier). -/

/-- Whether `flash` writes `on_color` at the tick `count`. -/
def flashIsOn (on_color off_color : Nat) (group1 group2 on_time off_time period : Int)
    (count : Nat) : Bool :=
  decide (flash count on_color off_color group1 group2 on_time off_time period = .ok on_color)

/-- The ticks `a, …, b` are a flash of the light `lit`, a maximal run of
consecutive ticks at which it is lit: every tick from `a` to `b` is lit, the
tick before `a` (when `a` is not the first tick of all) is not lit, and the
tick after `b` is not lit. -/
def isFlash (lit : Nat → Bool) (a b : Nat) : Prop :=
  a ≤ b ∧ (∀ t, a ≤ t → t < b + 1 → lit t = true) ∧ (a = 0 ∨ lit (a - 1) = false)
    ∧ lit (b + 1) = false

instance (lit : Nat → Bool) (a b : Nat) : Decidable (isFlash lit a b) := by
  unfold isFlash; infer_instance

/-- The value of a decimal numeral, given by its digit characters. -/
def numeralValue (ds : List Char) : Nat :=
  ds.foldl (fun acc c => acc * 10 + (c.toNat - 48)) 0

/-- The group qualifiers of the grammar: none, `(d)`, `(d1+d2)`, `(d+LFl)`. -/
inductive GroupQualifier
  | absent
  | single (d : Char)
  | composite (d1 d2 : Char)
  | longFlash (d : Char)

/-- The text of a group qualifier inside a characteristic string, with the
blank that separates it from the colour letter. -/
def GroupQualifier.text : GroupQualifier → List Char
  | .absent => []
  | .single d => ['(', d, ')', ' ']
  | .composite d1 d2 => ['(', d1, '+', d2, ')', ' ']
  | .longFlash d => ['(', d, '+', 'L', 'F', 'l', ')', ' ']

/-- The characters of a group qualifier that stand for its counts. -/
def GroupQualifier.digits : GroupQualifier → List Char
  | .absent => []
  | .single d => [d]
  | .composite d1 d2 => [d1, d2]
  | .longFlash d => [d]

/-- A qualifier is well formed when its counts are decimal digits. -/
def GroupQualifier.wellFormed (G : GroupQualifier) : Prop :=
  ∀ d ∈ G.digits, isdigit d = true

instance (G : GroupQualifier) : Decidable G.wellFormed := by
  unfold GroupQualifier.wellFormed; infer_instance

/-- The first group count a qualifier stands for (1 when there is none). -/
def GroupQualifier.group1 : GroupQualifier → Int
  | .absent => 1
  | .single d => ((d.toNat - 48 : Nat) : Int)
  | .composite d1 _ => ((d1.toNat - 48 : Nat) : Int)
  | .longFlash d => ((d.toNat - 48 : Nat) : Int)

/-- The second group count a qualifier stands for, in the encoding of the
source: 0 when there is none, -1 for one long flash. -/
def GroupQualifier.group2 : GroupQualifier → Int
  | .absent => 0
  | .single _ => 0
  | .composite _ d2 => ((d2.toNat - 48 : Nat) : Int)
  | .longFlash _ => -1

/-- Whether a flash pattern with non-negative times is in the lit part of its
cycle at `count`: the two-tier rule of `flash` on in-range arguments. -/
def flashLit (count : Nat) (g1 g2 : Int) (ton toff P : Nat) : Bool :=
  if 2 * (count % P) < P then
    decide ((((count % P) / (ton + toff) : Nat) : Int) < g1 ∧ (count % P) % (ton + toff) ≤ ton)
  else if g2 < 0 then
    decide ((((count % P % (P / 2)) / 4000 : Nat) : Int) < -g2 ∧
      (count % P % (P / 2)) % 4000 ≤ 2000)
  else
    decide ((((count % P % (P / 2)) / (ton + toff) : Nat) : Int) < g2 ∧
      (count % P % (P / 2)) % (ton + toff) ≤ ton)

/-- The length of the window of a Morse symbol: 500 ms for a dot, 1500 ms for
a dash. -/
def symbolLength (s : Char) : Nat := if s = '.' then 500 else 1500

/-- The start of the window of the symbol number `i` of a code: the sum, over
the symbols before it, of their length plus the 500 ms gap. -/
def windowStart (code : List Char) (i : Nat) : Nat :=
  ((code.take i).map (fun s => symbolLength s + 500)).sum

/-- The position `pos` lies inside the window of some symbol of the code. -/
def inMorseWindow (code : List Char) (pos : Nat) : Prop :=
  ∃ i, i < code.length ∧
    windowStart code i ≤ pos ∧ pos < windowStart code i + symbolLength (code.getD i '.')

instance (code : List Char) (pos : Nat) : Decidable (inMorseWindow code pos) := by
  unfold inMorseWindow; infer_instance

/-! ## The pixel strip -/

/-- The number of pixels of the strip, `LED_COUNT`. -/
def LED_COUNT : Nat := 20

/-- Modelled from the library: the state of the `Adafruit_NeoPixel` strip, as
the colour last passed to `setPixelColor` for each pixel (the scaling by the
brightness, which the library applies to the stored bytes, is left out). -/
abbrev Strip := Nat → Nat

/-- Modelled from the library: `strip.setPixelColor(n, c)` takes the index as
a 16-bit unsigned number and stores the colour when the index is below the
number of pixels; otherwise it does nothing. -/
def setPixelColor (strip : Strip) (n : Int) (c : Nat) : Strip :=
  if toUnsigned n < LED_COUNT then Function.update strip (toUnsigned n) c else strip

/-- Modelled from the library: `strip.clear()` sets every pixel to off. -/
def clear (_strip : Strip) : Strip := fun _ => OFF

/-- The strip the call `parse(count, led_idx, str)` leaves when it returns
(`parseOn` below gives the same strip, see `parseOn_frame`).  An execution
that leaves the behaviour C defines has no strip to return; the value given
for it here is the strip before the call, and nothing is stated about it. -/
def stripAfter (count : Nat) (led_idx : Int) (str : List Char) (strip : Strip) : Strip :=
  match parse count str with
  | .ok (some color) => setPixelColor strip led_idx color
  | .ok none => strip
  | .error _ => strip

/-- An evaluator call on the strip: each evaluator computes its colour and
ends with `strip.setPixelColor(led_idx, active_color)`, its one access to the
strip, for the `led_idx` it was given. -/
def execCallOn (strip : Strip) (count : Nat) (led_idx : Int) : Call → Except UB Strip
  | .fixed color => (fixed count color).map fun c => setPixelColor strip led_idx c
  | .flash on_color off_color group1 group2 on_time off_time period =>
    (flash count on_color off_color group1 group2 on_time off_time period).map
      fun active_color => setPixelColor strip led_idx active_color
  | .morse color ch period =>
    (morse count color ch period).map fun active_color => setPixelColor strip led_idx active_color

/-- The call `parse(count, led_idx, str)` on the strip: the strip when the
call returns.  `parse` hands `count` and `led_idx` on to the evaluator it
calls and does not touch the strip itself; an execution that leaves the
behaviour C defines has no strip to return. -/
def parseOn (strip : Strip) (count : Nat) (led_idx : Int) (str : List Char) :
    Except UB Strip :=
  match parseCall str with
  | .error e => .error e
  | .ok none => .ok strip
  | .ok (some call) => execCallOn strip count led_idx call

/-! ## The grammar table of the specification -/

/-- The rhythm classes whose branch of `parse` decodes a group qualifier and
a period: quick, very quick, ultra quick, flashing, long flashing, occulting. -/
inductive GroupedClass
  | Q
  | VQ
  | UQ
  | Fl
  | LFl
  | Oc
  deriving DecidableEq, Repr

/-- The class token of the grammar, with the blank that follows it. -/
def GroupedClass.text : GroupedClass → List Char
  | .Q => ['Q', ' ']
  | .VQ => ['V', 'Q', ' ']
  | .UQ => ['U', 'Q', ' ']
  | .Fl => ['F', 'l', ' ']
  | .LFl => ['L', '.', 'F', 'l', ' ']
  | .Oc => ['O', 'c', ' ']

/-- The on time the grammar table gives to a class, in milliseconds. -/
def GroupedClass.onTime : GroupedClass → Int
  | .Q => 500
  | .VQ => 250
  | .UQ => 125
  | .Fl => 500
  | .LFl => 2000
  | .Oc => 500

/-- The off time the grammar table gives to a class, in milliseconds. -/
def GroupedClass.offTime : GroupedClass → Int
  | .Q => 500
  | .VQ => 250
  | .UQ => 125
  | .Fl => 1500
  | .LFl => 2000
  | .Oc => 1500

/-- The colour shown while a flash of the class is on: the colour of the
letter, except for occulting, where it is off. -/
def GroupedClass.onColor (K : GroupedClass) (color : Nat) : Nat :=
  if K = .Oc then OFF else color

/-- The colour shown between the flashes of the class: off, except for
occulting, where it is the colour of the letter. -/
def GroupedClass.offColor (K : GroupedClass) (color : Nat) : Nat :=
  if K = .Oc then color else OFF

/-- The classes the grammar table writes with an optional qualifier
(`Fl`, `L.Fl`, `Oc`); the quick classes without a qualifier take no period. -/
def GroupedClass.qualifierOptional : GroupedClass → Bool
  | .Fl => true
  | .LFl => true
  | .Oc => true
  | _ => false

/-! ## The buffer of the characteristic string

`aToPeriod` writes into the string it is given, which is the end of the
buffer `parse` works on.  The two definitions below follow the branches of
`parse` once more, to tell which text `aToPeriod` receives. -/

/-- The statements every grouped branch of `parse` repeats, up to the call of
`aToPeriod`: the pointer `&str[2]` passed to it. -/
def groupTail (str : List Char) (skip : Nat) : Except UB (List Char) := do
  let str ← advance str skip
  let (char_skip, _, _) ← aToGroups str
  let str ← advance str char_skip
  let _ ← rd str 0
  advance str 2

/-- The text `parse` passes to `aToPeriod`, or `none` in the branches that do
not call it. -/
def periodText (str : List Char) : Except UB (Option (List Char)) :=
  let len := str.length
  if len < 2 ∨ len > 30 then .ok none
  else if peek str 0 = 'I' ∧ peek str 1 = 's' ∧ peek str 2 = 'o' then do
    let _ ← rd str 4
    let tail ← advance str 6
    pure (some tail)
  else if peek str 0 = 'Q' then
    if peek str 1 = ' ' ∧ peek str 2 ≠ '(' then .ok none
    else (groupTail str 2).map some
  else if peek str 0 = 'V' ∧ peek str 1 = 'Q' then
    if peek str 2 = ' ' ∧ peek str 3 ≠ '(' then .ok none
    else (groupTail str 3).map some
  else if peek str 0 = 'U' ∧ peek str 1 = 'Q' then
    if peek str 2 = ' ' ∧ peek str 3 ≠ '(' then .ok none
    else (groupTail str 3).map some
  else if peek str 0 = 'F' then
    if peek str 1 = ' ' then .ok none
    else if peek str 1 = 'l' ∧ peek str 2 = ' ' then (groupTail str 3).map some
    else .ok none
  else if peek str 0 = 'L' ∧ peek str 1 = '.' ∧ peek str 2 = 'F' ∧ peek str 3 = 'l' then
    (groupTail str 5).map some
  else if peek str 0 = 'O' ∧ peek str 1 = 'c' then (groupTail str 3).map some
  else if peek str 0 = 'M' ∧ peek str 1 = 'o' then do
    let c3 ← rd str 3
    if c3 = '(' then
      let c5 ← rd str 5
      if c5 = ')' then
        let _ ← rd str 4
        let str ← advance str 7
        let _ ← rd str 0
        let tail ← advance str 2
        pure (some tail)
      else pure none
    else pure none
  else .ok none

/-- The buffer after the call of `parse`: where `aToPeriod` has been called,
the end of the buffer is the text `aToPeriod` leaves there. -/
def parseStore (str : List Char) : List Char :=
  match periodText str with
  | .ok (some tail) => str.take (str.length - tail.length) ++ aToPeriodStore tail
  | .ok none => str
  | .error _ => str

/-! ## The characteristic strings with a period -/

/-- The part of a characteristic string before its period, for the classes
that take one: isophase, the grouped classes, Morse. -/
inductive PeriodForm
  | iso (c : Char)
  | grouped (K : GroupedClass) (G : GroupQualifier) (c : Char)
  | morse (L c : Char)

/-- The text of the part before the period, with its final blank. -/
def PeriodForm.text : PeriodForm → List Char
  | .iso c => ['I', 's', 'o', ' ', c, ' ']
  | .grouped K G c => K.text ++ (G.text ++ [c, ' '])
  | .morse L c => ['M', 'o', ' ', '(', L, ')', ' ', c, ' ']

/-- The part before the period is well formed: a colour letter among R, G,
Y, W, digits as group counts, no qualifier only where the grammar allows it. -/
def PeriodForm.wellFormed : PeriodForm → Prop
  | .iso c => c ∈ ['R', 'G', 'Y', 'W']
  | .grouped K G c =>
    G.wellFormed ∧ (G = .absent → K.qualifierOptional = true) ∧ c ∈ ['R', 'G', 'Y', 'W']
  | .morse _ c => c ∈ ['R', 'G', 'Y', 'W']

/-- The evaluator call of a characteristic string, given its period. -/
def PeriodForm.call : PeriodForm → Int → Call
  | .iso c, P => .flash (charToColor c) OFF 1 0 (P.tdiv 2) 0 P
  | .grouped K G c, P =>
    .flash (K.onColor (charToColor c)) (K.offColor (charToColor c)) G.group1 G.group2
      K.onTime K.offTime P
  | .morse L c, P => .morse (charToColor c) L P

/-! ## Machine-integer lemmas -/

theorem toUnsigned_natCast (n : Nat) (h : n < 65536) : toUnsigned (n : Int) = n := by
  unfold toUnsigned; omega

theorem toInt_of_lt (n : Nat) (h : n < 32768) : toInt n = (n : Int) := by
  unfold toInt
  have hn : n % 65536 = n := Nat.mod_eq_of_lt (by omega)
  rw [hn]; simp [h]

theorem tdiv_two_natCast (n : Nat) : Int.tdiv (n : Int) 2 = ((n / 2 : Nat) : Int) := by
  rw [Int.tdiv_eq_ediv (by omega) (by omega)]; simp

theorem checkInt_of_range (x : Int) (h0 : -32768 ≤ x) (h1 : x ≤ 32767) : checkInt x = .ok x := by
  unfold checkInt INT_MIN INT_MAX
  rw [if_pos ⟨h0, h1⟩]

theorem checkInt_range (x y : Int) (h : checkInt x = .ok y) : y = x ∧ -32768 ≤ x ∧ x ≤ 32767 := by
  unfold checkInt INT_MIN INT_MAX at h
  by_cases hr : -32768 ≤ x ∧ x ≤ 32767
  · rw [if_pos hr] at h
    exact ⟨(Except.ok.inj h).symm, hr⟩
  · rw [if_neg hr] at h
    cases h

/-! ## The value of `flash` on in-range arguments -/

theorem activeColor_val (q : Nat) (g : Int) (ton S a b : Nat) (hq : q < 32768)
    (hon : ton < 65536) (hS : S < 65536) :
    activeColor q (toInt (q / S)) g (ton : Int) (S : Int) a b =
      if ((q / S : Nat) : Int) < g ∧ q % S ≤ ton then a else b := by
  have hqs : q / S < 32768 := lt_of_le_of_lt (Nat.div_le_self q S) hq
  unfold activeColor
  rw [toUnsigned_natCast S hS, toUnsigned_natCast ton hon, toInt_of_lt _ hqs]
  by_cases h1 : ((q / S : Nat) : Int) < g <;> by_cases h2 : q % S ≤ ton <;> simp [h1, h2]

/-- On a positive period and a positive sub-period, both inside the range of
`int`, `flash` is defined and its colour is given by the position inside the
period alone. -/
theorem flash_val (count a b : Nat) (g1 g2 : Int) (ton toff P : Nat)
    (hP : 0 < P) (hPmax : P ≤ 32767) (hS : 0 < ton + toff) (hSmax : ton + toff ≤ 32767)
    (hg2 : -32768 < g2) :
    flash count a b g1 g2 (ton : Int) (toff : Int) (P : Int) = .ok (
      if 2 * (count % P) < P then
        (if (((count % P) / (ton + toff) : Nat) : Int) < g1 ∧ (count % P) % (ton + toff) ≤ ton
          then a else b)
      else if g2 < 0 then
        (if (((count % P % (P / 2)) / 4000 : Nat) : Int) < -g2 ∧
            (count % P % (P / 2)) % 4000 ≤ 2000
          then a else b)
      else
        (if (((count % P % (P / 2)) / (ton + toff) : Nat) : Int) < g2 ∧
            (count % P % (P / 2)) % (ton + toff) ≤ ton
          then a else b)) := by
  have hpos : count % P < P := Nat.mod_lt _ hP
  have hS' : ((ton : Int) + (toff : Int)) = ((ton + toff : Nat) : Int) := by push_cast; rfl
  unfold flash
  rw [toUnsigned_natCast P (by omega), hS', checkInt_of_range _ (by omega) (by omega)]
  simp only [toUnsigned_natCast (ton + toff) (by omega), UINT_SIZE]
  rw [if_neg (by omega), if_neg (by omega)]
  have hm : (count % P * 2) % 65536 = count % P * 2 := Nat.mod_eq_of_lt (by omega)
  rw [hm]
  by_cases hh : 2 * (count % P) < P
  · rw [if_neg (by omega), if_pos hh, activeColor_val _ _ _ _ _ _ (by omega) (by omega) (by omega)]
  · have hP2 : 0 < P / 2 := by omega
    have hq : count % P % (P / 2) < P / 2 := Nat.mod_lt _ hP2
    rw [if_pos (by omega), if_neg hh, tdiv_two_natCast, toUnsigned_natCast (P / 2) (by omega)]
    by_cases hg : g2 < 0
    · have hlong := activeColor_val (count % P % (P / 2)) (-g2) 2000 4000 a b
        (by omega) (by omega) (by omega)
      have h4 : toUnsigned 4000 = 4000 := by decide
      simp only [hg, if_true, checkInt_of_range (-g2) (by omega) (by omega), Except.map]
      rw [if_neg (by omega)]
      simp only [LONG_FLASH_DURATION, LONG_FLASH_PERIOD]
      norm_num at hlong ⊢
      rw [h4, hlong]
    · simp only [hg, if_false]
      rw [if_neg (by omega), toUnsigned_natCast (ton + toff) (by omega),
        activeColor_val _ _ _ _ _ _ (by omega) (by omega) (by omega)]

/-- The value of `flash` on in-range arguments, with the lit part of the cycle
named by `flashLit`. -/
theorem flash_val_lit (count a b : Nat) (g1 g2 : Int) (ton toff P : Nat)
    (hP : 0 < P) (hPmax : P ≤ 32767) (hS : 0 < ton + toff) (hSmax : ton + toff ≤ 32767)
    (hg2 : -32768 < g2) :
    flash count a b g1 g2 (ton : Int) (toff : Int) (P : Int)
      = .ok (if flashLit count g1 g2 ton toff P = true then a else b) := by
  rw [flash_val count a b g1 g2 ton toff P hP hPmax hS hSmax hg2]
  unfold flashLit
  congr 1
  by_cases h1 : 2 * (count % P) < P
  · simp only [h1, if_true, decide_eq_true_eq]
  · by_cases h2 : g2 < 0
    · simp only [h1, h2, if_true, if_false, decide_eq_true_eq]
    · simp only [h1, h2, if_false, decide_eq_true_eq]

/-! ## C1: periodicity -/

/-- C1 (amended). Periodicity of the evaluators: for a period `P > 0` (an
`int`, hence at most 32767) and every elapsed time `t` at which the 16-bit
tick counter does not wrap between `t` and `t + P` (`t % 65536 + P < 65536`,
which holds whenever `t + P < 65536`), `flash` and `morse` compute at `t + P`
what they compute at `t`, whatever their other arguments, and what they
compute depends on the counter only through its remainder modulo `P`; `fixed`
does not depend on the counter at all. -/
theorem evaluators_periodic (t on_color off_color : Nat)
    (group1 group2 on_time off_time : Int) (ch : Char) (P : Nat)
    (hP : 0 < P) (hPmax : P ≤ 32767) (hwrap : t % 65536 + P < 65536) :
    flash (counterAt (t + P)) on_color off_color group1 group2 on_time off_time (P : Int)
        = flash (counterAt t) on_color off_color group1 group2 on_time off_time (P : Int)
    ∧ flash (counterAt t) on_color off_color group1 group2 on_time off_time (P : Int)
        = flash (counterAt t % P) on_color off_color group1 group2 on_time off_time (P : Int)
    ∧ morse (counterAt (t + P)) on_color ch (P : Int) = morse (counterAt t) on_color ch (P : Int)
    ∧ morse (counterAt t) on_color ch (P : Int) = morse (counterAt t % P) on_color ch (P : Int)
    ∧ fixed (counterAt (t + P)) on_color = fixed (counterAt t) on_color := by
  have hu : toUnsigned (P : Int) = P := toUnsigned_natCast P (by omega)
  have hc : counterAt (t + P) = counterAt t + P := by
    unfold counterAt UINT_SIZE; omega
  rw [hc]
  refine ⟨?_, ?_, ?_, ?_, rfl⟩
  · unfold flash; simp only [hu, Nat.add_mod_right]
  · unfold flash; simp only [hu, Nat.mod_mod]
  · unfold morse; simp only [hu, Nat.add_mod_right]
  · unfold morse; simp only [hu, Nat.mod_mod]

/-- C1, at "Fl (2) G 6s" and the letter A: the elapsed times 600 and 6600 give
the same, defined, colours. -/
theorem evaluators_periodic_witness :
    (flash (counterAt (600 + 6000)) GREEN OFF 2 0 500 1500 (6000 : Nat)
        = flash (counterAt 600) GREEN OFF 2 0 500 1500 (6000 : Nat)
      ∧ flash (counterAt 600) GREEN OFF 2 0 500 1500 (6000 : Nat)
        = flash (counterAt 600 % 6000) GREEN OFF 2 0 500 1500 (6000 : Nat)
      ∧ morse (counterAt (600 + 6000)) GREEN 'A' (6000 : Nat)
        = morse (counterAt 600) GREEN 'A' (6000 : Nat)
      ∧ morse (counterAt 600) GREEN 'A' (6000 : Nat)
        = morse (counterAt 600 % 6000) GREEN 'A' (6000 : Nat)
      ∧ fixed (counterAt (600 + 6000)) GREEN = fixed (counterAt 600) GREEN)
    ∧ flash (counterAt 600) GREEN OFF 2 0 500 1500 (6000 : Nat) = .ok OFF
    ∧ morse (counterAt 1200) GREEN 'A' (6000 : Nat) = .ok GREEN :=
  ⟨evaluators_periodic 600 GREEN OFF 2 0 500 1500 'A' 6000 (by decide) (by decide) (by decide),
    by decide, by decide⟩

/-- C1 as stated fails: the tick counter is an `unsigned int` of 16 bits and
starts again from 0 after 65535.  With the period 6000 of "Fl (2) G 6s", the
light is off at the elapsed time 59536 (position 5536 of the period) and green
one period later, at 65536, where the counter holds 0; the same holds for the
Morse letter A. -/
theorem evaluators_periodic_counterexample :
    (0 : Int) < 6000
    ∧ counterAt (59536 + 6000) = 0
    ∧ flash (counterAt 59536) GREEN OFF 2 0 500 1500 6000 = .ok OFF
    ∧ flash (counterAt (59536 + 6000)) GREEN OFF 2 0 500 1500 6000 = .ok GREEN
    ∧ parse (counterAt 59536) "Fl (2) G 6s".toList = .ok (some OFF)
    ∧ parse (counterAt (59536 + 6000)) "Fl (2) G 6s".toList = .ok (some GREEN)
    ∧ morse (counterAt 59536) GREEN 'A' 6000 = .ok OFF
    ∧ morse (counterAt (59536 + 6000)) GREEN 'A' 6000 = .ok GREEN
    ∧ GREEN ≠ OFF := by decide

/-! ## C2: the two-tier algorithm of `flash` -/

/-- The value of `flash` when `group2 ≥ 0`, for an on time `ton ≥ 0` and a
sub-period `S > 0` inside the range of `int` (the off time may be negative). -/
theorem flash_val_groups (count a b : Nat) (g1 g2 on_time off_time : Int) (ton S P : Nat)
    (hon : on_time = (ton : Int)) (hsub : on_time + off_time = (S : Int))
    (hP : 0 < P) (hPmax : P ≤ 32767) (htmax : ton ≤ 32767) (hS : 0 < S) (hSmax : S ≤ 32767)
    (hg2 : 0 ≤ g2) :
    flash count a b g1 g2 on_time off_time (P : Int) = .ok (
      if 2 * (count % P) < P then
        (if (((count % P) / S : Nat) : Int) < g1 ∧ (count % P) % S ≤ ton then a else b)
      else
        (if (((count % P % (P / 2)) / S : Nat) : Int) < g2 ∧ (count % P % (P / 2)) % S ≤ ton
          then a else b)) := by
  have hpos : count % P < P := Nat.mod_lt _ hP
  unfold flash
  rw [toUnsigned_natCast P (by omega), hsub, checkInt_of_range _ (by omega) (by omega)]
  simp only [toUnsigned_natCast S (by omega), UINT_SIZE]
  rw [if_neg (by omega), if_neg (by omega)]
  have hm : (count % P * 2) % 65536 = count % P * 2 := Nat.mod_eq_of_lt (by omega)
  rw [hm, hon]
  by_cases hh : 2 * (count % P) < P
  · rw [if_neg (by omega), if_pos hh, activeColor_val _ _ _ _ _ _ (by omega) (by omega) (by omega)]
  · have hP2 : 0 < P / 2 := by omega
    have hq : count % P % (P / 2) < P / 2 := Nat.mod_lt _ hP2
    rw [if_pos (by omega), if_neg hh, tdiv_two_natCast, toUnsigned_natCast (P / 2) (by omega)]
    simp only [not_lt.mpr hg2, if_false]
    rw [if_neg (by omega), toUnsigned_natCast S (by omega),
      activeColor_val _ _ _ _ _ _ (by omega) (by omega) (by omega)]

/-- C2 (amended). For a flash pattern with `on_time ≥ 0`, period `P > 0`,
sub-period `S = on_time + off_time > 0` (all of them `int`s, hence at most
32767) and `group2 ≥ 0`: with `pos = count % P`, and `(g, q) = (group1, pos)`
when `2 * pos < P` and `(g, q) = (group2, pos % (P / 2))` otherwise, `flash`
writes `on_color` if `q / S < g` and `q % S ≤ on_time`, and `off_color`
otherwise. -/
theorem flash_two_tier (count on_color off_color : Nat)
    (group1 group2 on_time off_time : Int) (P : Nat) (hP : 0 < P) (hPmax : P ≤ 32767)
    (hon : 0 ≤ on_time) (honmax : on_time ≤ 32767)
    (hS : 0 < on_time + off_time) (hSmax : on_time + off_time ≤ 32767) (hg2 : 0 ≤ group2) :
    flash count on_color off_color group1 group2 on_time off_time (P : Int) =
      .ok (
        let pos := count % P
        let g : Int := if 2 * pos < P then group1 else group2
        let q : Nat := if 2 * pos < P then pos else pos % (P / 2)
        if (q : Int) / (on_time + off_time) < g ∧ (q : Int) % (on_time + off_time) ≤ on_time
        then on_color else off_color) := by
  obtain ⟨ton, hton⟩ : ∃ ton : Nat, on_time = (ton : Int) := ⟨on_time.toNat, by omega⟩
  obtain ⟨S, hsub⟩ : ∃ S : Nat, on_time + off_time = (S : Int) :=
    ⟨(on_time + off_time).toNat, by omega⟩
  rw [flash_val_groups count on_color off_color group1 group2 on_time off_time ton S P hton hsub
    hP hPmax (by omega) (by omega) (by omega) hg2, hsub, hton]
  have key : ∀ (q : Nat) (g : Int),
      ((((q / S : Nat) : Int) < g ∧ q % S ≤ ton) ↔
        ((q : Int) / (S : Int) < g ∧ (q : Int) % (S : Int) ≤ (ton : Int))) := by
    intro q g
    rw [Int.natCast_div, ← Int.natCast_mod, Nat.cast_le]
  by_cases hh : 2 * (count % P) < P
  · simp only [hh, if_true, key]
  · simp only [hh, if_false, key]

/-- C2, the documented example group1 = 2, group2 = 0, on = 500, off = 1500,
P = 6000: `on_color` at 0 and 2000, `off_color` at 600 and 3100. -/
theorem flash_two_tier_witness :
    flash 0 GREEN OFF 2 0 500 1500 (6000 : Nat) = .ok GREEN
    ∧ flash 2000 GREEN OFF 2 0 500 1500 (6000 : Nat) = .ok GREEN
    ∧ flash 600 GREEN OFF 2 0 500 1500 (6000 : Nat) = .ok OFF
    ∧ flash 3100 GREEN OFF 2 0 500 1500 (6000 : Nat) = .ok OFF :=
  ⟨(flash_two_tier 0 GREEN OFF 2 0 500 1500 6000 (by decide) (by decide) (by decide)
      (by decide) (by decide) (by decide) (by decide)).trans (by decide),
    (flash_two_tier 2000 GREEN OFF 2 0 500 1500 6000 (by decide) (by decide) (by decide)
      (by decide) (by decide) (by decide) (by decide)).trans (by decide),
    (flash_two_tier 600 GREEN OFF 2 0 500 1500 6000 (by decide) (by decide) (by decide)
      (by decide) (by decide) (by decide) (by decide)).trans (by decide),
    (flash_two_tier 3100 GREEN OFF 2 0 500 1500 6000 (by decide) (by decide) (by decide)
      (by decide) (by decide) (by decide) (by decide)).trans (by decide)⟩

/-- C2 as stated fails: with on_time = -5, off_time = 10 (so that
`S = 5 > 0`), P = 100, group1 = 1 and group2 = 0, the position 4 has
`4 / 5 = 0 < 1` and `4 % 5 = 4`, which is not `≤ -5`, so that the claimed rule
gives `off_color`; `flash` compares `count % sub_period` with `on_time` as
unsigned numbers, where -5 is 65531, and writes `on_color`. -/
theorem flash_two_tier_counterexample :
    ((0 : Int) < 100 ∧ (0 : Int) < -5 + 10 ∧ (0 : Int) ≤ 0)
    ∧ (2 * (4 % 100) < 100 ∧ (4 : Int) / (-5 + 10) < 1 ∧ ¬ ((4 : Int) % (-5 + 10) ≤ -5))
    ∧ flash 4 GREEN OFF 1 0 (-5) 10 100 = .ok GREEN
    ∧ toUnsigned (-5) = 65531
    ∧ GREEN ≠ OFF := by decide

/-! ## C3: the number of flashes in each half of the period -/

/-- A flash has one last tick. -/
theorem isFlash_end_unique (lit : Nat → Bool) (a b c : Nat)
    (hb : isFlash lit a b) (hc : isFlash lit a c) : b = c := by
  obtain ⟨hab, hallb, _, hpostb⟩ := hb
  obtain ⟨hac, hallc, _, hpostc⟩ := hc
  rcases Nat.lt_trichotomy b c with h | h | h
  · have := hallc (b + 1) (by omega) (by omega)
    rw [hpostb] at this; cases this
  · exact h
  · have := hallb (c + 1) (by omega) (by omega)
    rw [hpostc] at this; cases this

/-- C4. The code at the example of the comment above `flash` (group1 = 2,
group2 = 0, on_time = 5, off_time = 5, period = 40): the ticks of one period
at which `flash` writes `on_color` are 0-5 and 10-15, six ticks for each flash
and not the five of the diagram; at tick 5 the code writes `on_color`. -/
theorem flash_documented_diagram :
    (List.range 40).filter (flashIsOn 1 0 2 0 5 5 40) = [0, 1, 2, 3, 4, 5, 10, 11, 12, 13, 14, 15]
    ∧ flash 5 1 0 2 0 5 5 40 = .ok 1 := by decide

/-! ## Lemmas on the parser -/

theorem parse_of_call (count : Nat) (str : List Char) (call : Call)
    (h : parseCall str = .ok (some call)) :
    parse count str = (execCall count call).map some := by
  unfold parse; rw [h]

theorem scanDigits_all (ds : List Char) (hdig : ∀ d ∈ ds, isdigit d = true) (acc n : Nat) :
    scanDigits ds acc n
      = (ds.foldl (fun acc c => acc * 10 + (c.toNat - 48)) acc, n + ds.length, []) := by
  induction ds generalizing acc n with
  | nil => simp [scanDigits]
  | cons d rest ih =>
    have hd : isdigit d = true := hdig d (List.mem_cons_self _ _)
    have hrest : ∀ x ∈ rest, isdigit x = true := fun x hx => hdig x (List.mem_cons_of_mem _ hx)
    simp only [scanDigits, hd, if_true, List.foldl_cons, List.length_cons]
    rw [ih hrest]
    simp only [Prod.mk.injEq, true_and, and_true]
    omega

theorem digit_not_space (d : Char) (hd : isdigit d = true) :
    isspace d = false ∧ d ≠ '-' ∧ d ≠ '+' := by
  simp only [isdigit, decide_eq_true_eq] at hd
  refine ⟨?_, ?_, ?_⟩
  · simp only [isspace, decide_eq_false_iff_not]; omega
  · rintro rfl; revert hd; decide
  · rintro rfl; revert hd; decide

/-- The decimal number read from a decimal numeral. -/
theorem readDecimal_numeral (ds : List Char) (hne : ds ≠ [])
    (hdig : ∀ d ∈ ds, isdigit d = true) :
    readDecimal ds = ⟨false, numeralValue ds, 0⟩ := by
  obtain ⟨d, rest, rfl⟩ := List.exists_cons_of_ne_nil hne
  obtain ⟨h1, h2, h3⟩ := digit_not_space d (hdig d (List.mem_cons_self _ _))
  have hskip : skipSpace (d :: rest) = d :: rest := by simp [skipSpace, h1]
  have hsign : scanSign (d :: rest) = (false, d :: rest) := by simp [scanSign, h2, h3]
  unfold readDecimal
  rw [hskip, hsign]
  simp only [scanDigits_all (d :: rest) hdig 0 0]
  simp [numeralValue]

/-- A digit is none of the letters that start an infinity, a NaN or the mark
of a hexadecimal number. -/
theorem digit_not_letter (d : Char) (hd : isdigit d = true) :
    d ≠ 'i' ∧ d ≠ 'I' ∧ d ≠ 'n' ∧ d ≠ 'N' ∧ d ≠ 'x' ∧ d ≠ 'X' := by
  refine ⟨?_, ?_, ?_, ?_, ?_, ?_⟩ <;> (rintro rfl; revert hd; decide)

/-- The model of `atof` on a decimal numeral: the `double` nearest to its
value. -/
theorem atof_numeral (ds : List Char) (hne : ds ≠ []) (hdig : ∀ d ∈ ds, isdigit d = true) :
    atof ds = (FloatValue.finite false (numeralValue ds) 1).round 53 := by
  have hdec := readDecimal_numeral ds hne hdig
  obtain ⟨d, rest, rfl⟩ := List.exists_cons_of_ne_nil hne
  have hd := hdig d (List.mem_cons_self _ _)
  obtain ⟨h1, h2, h3⟩ := digit_not_space d hd
  obtain ⟨l1, l2, l3, l4, _, _⟩ := digit_not_letter d hd
  have hskip : skipSpace (d :: rest) = d :: rest := by simp [skipSpace, h1]
  have hsign : scanSign (d :: rest) = (false, d :: rest) := by simp [scanSign, h2, h3]
  have hinf : startsInf (d :: rest) = false := by
    rcases rest with _ | ⟨b, _ | ⟨c, r⟩⟩ <;> simp [startsInf, l1, l2]
  have hnan : startsNan (d :: rest) = false := by
    rcases rest with _ | ⟨b, _ | ⟨c, r⟩⟩ <;> simp [startsNan, l3, l4]
  have hhex : readHex (d :: rest) = none := by
    rcases rest with _ | ⟨x, r⟩
    · rfl
    · obtain ⟨_, _, _, _, x1, x2⟩ :=
        digit_not_letter x (hdig x (List.mem_cons_of_mem _ (List.mem_cons_self _ _)))
      simp [readHex, x1, x2]
  unfold atof
  rw [hskip, hsign]
  simp only [hinf, hnan, hhex, hdec, Bool.false_eq_true, if_false]
  simp [Decimal.value]

/-- A whole number of seconds up to 32 goes through the two roundings and the
product by 1000 unchanged. -/
theorem wholeSeconds_millis (N : Nat) (hN : N ≤ 32) :
    FloatValue.toInt
        (((((FloatValue.finite false N 1).round 53).round 24).times 1000).round 24)
      = .ok ((N * 1000 : Nat) : Int) := by
  interval_cases N <;> decide

/-- The duration parser on a whole number of seconds followed by `s`. -/
theorem aToPeriod_seconds (ds : List Char) (hne : ds ≠ []) (hdig : ∀ d ∈ ds, isdigit d = true)
    (hmax : numeralValue ds * 1000 ≤ 32767) :
    aToPeriod (ds ++ ['s']) = .ok ((numeralValue ds * 1000 : Nat) : Int) := by
  have hstore : aToPeriodStore (ds ++ ['s']) = ds := by
    simp [aToPeriodStore]
  unfold aToPeriod
  rw [hstore, atof_numeral ds hne hdig]
  exact wholeSeconds_millis (numeralValue ds) (by omega)

theorem aToPeriod_range (per : List Char) (P : Int) (h : aToPeriod per = .ok P) :
    -32768 ≤ P ∧ P ≤ 32767 := by
  unfold aToPeriod at h
  simp only [] at h
  cases hv : ((atof (aToPeriodStore per)).round 24 |>.times 1000).round 24 with
  | finite neg n d =>
    rw [hv] at h
    obtain ⟨rfl, h1, h2⟩ := checkInt_range _ _ h
    exact ⟨h1, h2⟩
  | infinite neg => rw [hv] at h; cases h
  | nan => rw [hv] at h; cases h

/-- The duration parser on fractions of a second, on other forms of a number
and on a text that is no number: "16.3s" goes through the `float` nearest to
16.3, which lies below it, and gives 16299; "32.7679999s" gives the `float`
32768.0, which is outside `int`. -/
theorem aToPeriod_examples :
    aToPeriod "2.5s".toList = .ok 2500
    ∧ aToPeriod "16.3s".toList = .ok 16299
    ∧ aToPeriod "32.767s".toList = .ok 32766
    ∧ aToPeriod "32.7679999s".toList = .error .intRange
    ∧ aToPeriod "-1.5s".toList = .ok (-1500)
    ∧ aToPeriod "1e1s".toList = .ok 10000
    ∧ aToPeriod "0x10s".toList = .ok 16000
    ∧ aToPeriod "inf".toList = .error .intRange
    ∧ aToPeriod "nan".toList = .error .intRange
    ∧ aToPeriod "x".toList = .ok 0 := by decide

theorem atoi_digit (d t : Char) (rest : List Char) (hd : isdigit d = true)
    (ht : isdigit t = false) : atoi (d :: t :: rest) = ((d.toNat - 48 : Nat) : Int) := by
  obtain ⟨h1, h2, h3⟩ := digit_not_space d hd
  simp [atoi, skipSpace, scanSign, scanDigits, h1, h2, h3, hd, ht]

/-- The statements shared by the grouped branches, on a well-formed tail: the
counts of the qualifier, the colour of the letter and the parsed period. -/
theorem groupArgs_tail (pre : List Char) (G : GroupQualifier) (hG : G.wellFormed)
    (c sep : Char) (hc : c ≠ '(') (per : List Char) (P : Int) (hper : aToPeriod per = .ok P) :
    groupArgs (pre ++ (G.text ++ c :: sep :: per)) pre.length
      = .ok (G.group1, G.group2, charToColor c, P) := by
  have hadv : advance (pre ++ (G.text ++ c :: sep :: per)) pre.length
      = .ok (G.text ++ c :: sep :: per) := by
    simp [advance]
  unfold groupArgs
  rw [hadv]
  cases G with
  | absent =>
    simp [GroupQualifier.text, aToGroups, peek, hc, advance, rd, hper, bind, Except.bind,
      pure, Except.pure, GroupQualifier.group1, GroupQualifier.group2]
  | single d =>
    have hd : isdigit d = true := hG d (by simp [GroupQualifier.digits])
    have ha := atoi_digit d ')' (' ' :: c :: sep :: per) hd (by decide)
    simp [GroupQualifier.text, aToGroups, peek, hd, ha, advance, rd, hper, bind, Except.bind,
      pure, Except.pure, GroupQualifier.group1, GroupQualifier.group2]
  | composite d1 d2 =>
    have hd1 : isdigit d1 = true := hG d1 (by simp [GroupQualifier.digits])
    have hd2 : isdigit d2 = true := hG d2 (by simp [GroupQualifier.digits])
    have ha1 := atoi_digit d1 '+' (d2 :: ')' :: ' ' :: c :: sep :: per) hd1 (by decide)
    have ha2 := atoi_digit d2 ')' (' ' :: c :: sep :: per) hd2 (by decide)
    simp [GroupQualifier.text, aToGroups, peek, hd1, hd2, ha1, ha2, advance, rd, hper, bind,
      Except.bind, pure, Except.pure, GroupQualifier.group1, GroupQualifier.group2]
  | longFlash d =>
    have hd : isdigit d = true := hG d (by simp [GroupQualifier.digits])
    have ha := atoi_digit d '+' ('L' :: 'F' :: 'l' :: ')' :: ' ' :: c :: sep :: per) hd (by decide)
    have hL : isdigit 'L' = false := by decide
    simp [GroupQualifier.text, aToGroups, peek, hd, ha, hL, advance, rd, hper, bind, Except.bind,
      pure, Except.pure, GroupQualifier.group1, GroupQualifier.group2]

theorem GroupQualifier.group2_lower (G : GroupQualifier) : -32768 < G.group2 := by
  cases G <;> simp only [GroupQualifier.group2] <;> omega

theorem charToColor_ne_OFF (c : Char) : charToColor c ≠ OFF := by
  unfold charToColor
  split_ifs <;> decide

/-! ## C5: the ungrouped quick classes -/

theorem flash_half_duty (count col : Nat) (H : Nat) (hH : 0 < H) (hmax : 2 * H ≤ 32767) :
    flash count col OFF 1 0 (H : Int) (H : Int) ((2 * H : Nat) : Int)
      = .ok (if count % (2 * H) < H then col else OFF) := by
  rw [flash_val count col OFF 1 0 H H (2 * H) (by omega) hmax (by omega) (by omega) (by omega)]
  have hpos : count % (2 * H) < 2 * H := Nat.mod_lt _ (by omega)
  congr 1
  by_cases hh : count % (2 * H) < H
  · have hd : count % (2 * H) / (H + H) = 0 := Nat.div_eq_of_lt (by omega)
    have hm : count % (2 * H) % (H + H) = count % (2 * H) := Nat.mod_eq_of_lt (by omega)
    rw [if_pos (by omega), if_pos hh, hd, hm, if_pos]
    exact ⟨by norm_num, by omega⟩
  · rw [if_neg (by omega), if_neg hh, if_neg (by omega), if_neg]
    rintro ⟨h1, _⟩
    have : (0 : Int) ≤ ((count % (2 * H) % (2 * H / 2) / (H + H) : Nat) : Int) := Int.ofNat_nonneg _
    omega

/-- C5. For every colour letter `c` among R, G, Y, W and every tick count,
`parse` on "Q c" (cycle 1000), "VQ c" (cycle 500) and "UQ c" (cycle 250) shows
the colour of `c` when `count % cycle < cycle / 2` and off otherwise. -/
theorem quick_duty_cycle (c : Char) (hc : c ∈ ['R', 'G', 'Y', 'W']) (count : Nat) :
    parse count ['Q', ' ', c]
        = .ok (some (if count % 1000 < 1000 / 2 then charToColor c else OFF))
    ∧ parse count ['V', 'Q', ' ', c]
        = .ok (some (if count % 500 < 500 / 2 then charToColor c else OFF))
    ∧ parse count ['U', 'Q', ' ', c]
        = .ok (some (if count % 250 < 250 / 2 then charToColor c else OFF)) := by
  have hne : c ≠ '(' := by
    simp only [List.mem_cons, List.mem_singleton, List.not_mem_nil, or_false] at hc
    rcases hc with h | h | h | h <;> rw [h] <;> decide
  have hQ : parseCall ['Q', ' ', c] = .ok (some (.flash (charToColor c) OFF 1 0 QUICK_DURATION
      (QUICK_PERIOD - QUICK_DURATION) QUICK_PERIOD)) := by
    simp [parseCall, peek, hne]
  have hV : parseCall ['V', 'Q', ' ', c] = .ok (some (.flash (charToColor c) OFF 1 0
      VERY_QUICK_DURATION (VERY_QUICK_PERIOD - VERY_QUICK_DURATION) VERY_QUICK_PERIOD)) := by
    simp [parseCall, peek, hne]
  have hU : parseCall ['U', 'Q', ' ', c] = .ok (some (.flash (charToColor c) OFF 1 0
      ULTRA_QUICK_DURATION (ULTRA_QUICK_PERIOD - ULTRA_QUICK_DURATION) ULTRA_QUICK_PERIOD)) := by
    simp [parseCall, peek, hne]
  refine ⟨?_, ?_, ?_⟩
  · rw [parse_of_call count _ _ hQ]
    exact congrArg (Except.map some) (flash_half_duty count (charToColor c) 500 (by omega) (by omega))
  · rw [parse_of_call count _ _ hV]
    exact congrArg (Except.map some) (flash_half_duty count (charToColor c) 250 (by omega) (by omega))
  · rw [parse_of_call count _ _ hU]
    exact congrArg (Except.map some) (flash_half_duty count (charToColor c) 125 (by omega) (by omega))

/-- C5, at "Q R": lit at 0, off at 600, lit again at 1000. -/
theorem quick_duty_cycle_witness :
    parse 0 "Q R".toList = .ok (some RED)
    ∧ parse 600 "Q R".toList = .ok (some OFF)
    ∧ parse 1000 "Q R".toList = .ok (some RED) :=
  ⟨(quick_duty_cycle 'R' (by decide) 0).1.trans (by decide),
    (quick_duty_cycle 'R' (by decide) 600).1.trans (by decide),
    (quick_duty_cycle 'R' (by decide) 1000).1.trans (by decide)⟩

/-! ## C6: isophase -/

theorem flash_isophase (count col P : Nat) (hP : 0 < P) (hEven : P % 2 = 0) (hmax : P ≤ 32767) :
    flash count col OFF 1 0 (Int.tdiv (P : Int) 2) 0 (P : Int)
      = .ok (if count % P < P / 2 then col else OFF) := by
  have h0 : (0 : Int) = ((0 : Nat) : Int) := rfl
  rw [tdiv_two_natCast, h0,
    flash_val count col OFF 1 ((0 : Nat) : Int) (P / 2) 0 P hP hmax (by omega) (by omega) (by omega)]
  have hpos : count % P < P := Nat.mod_lt _ hP
  congr 1
  by_cases hh : count % P < P / 2
  · have hd : count % P / (P / 2 + 0) = 0 := Nat.div_eq_of_lt (by omega)
    have hm : count % P % (P / 2 + 0) = count % P := Nat.mod_eq_of_lt (by omega)
    rw [if_pos (by omega), if_pos hh, hd, hm, if_pos]
    exact ⟨by norm_num, by omega⟩
  · rw [if_neg (by omega), if_neg hh, if_neg (by omega), if_neg]
    rintro ⟨h1, _⟩
    have : (0 : Int) ≤ ((count % P % (P / 2) / (P / 2 + 0) : Nat) : Int) := Int.ofNat_nonneg _
    omega

/-- C6 (amended). For every colour letter `c` among R, G, Y, W and every
decimal numeral `ds` of at most 23 digits whose value `N ≥ 1` gives a period
`P = N * 1000` inside the range of `int` (`P ≤ 32767`), `parse` on
"Iso c <ds>s" shows the colour of `c` when `count % P < P / 2` and off when
`count % P ≥ P / 2`; the colour of `c` is not the off colour. -/
theorem isophase_equal_intervals (c : Char) (hc : c ∈ ['R', 'G', 'Y', 'W'])
    (ds : List Char) (hne : ds ≠ []) (hdig : ∀ d ∈ ds, isdigit d = true)
    (hlen : ds.length ≤ 23) (hpos : 0 < numeralValue ds)
    (hmax : numeralValue ds * 1000 ≤ 32767) (count : Nat) :
    parse count ('I' :: 's' :: 'o' :: ' ' :: c :: ' ' :: (ds ++ ['s']))
      = .ok (some (if count % (numeralValue ds * 1000) < numeralValue ds * 1000 / 2
          then charToColor c else OFF))
    ∧ charToColor c ≠ OFF := by
  have hcall : parseCall ('I' :: 's' :: 'o' :: ' ' :: c :: ' ' :: (ds ++ ['s']))
      = .ok (some (.flash (charToColor c) OFF 1 0
          (Int.tdiv ((numeralValue ds * 1000 : Nat) : Int) 2) 0
          ((numeralValue ds * 1000 : Nat) : Int))) := by
    simp only [parseCall, List.length_cons, List.length_append, List.length_nil, peek,
      List.getD_cons_zero, List.getD_cons_succ, rd, advance, List.drop_succ_cons, List.drop_zero]
    rw [if_neg (by omega)]
    simp [aToPeriod_seconds ds hne hdig hmax, bind, Except.bind, pure, Except.pure]
  constructor
  · rw [parse_of_call count _ _ hcall]
    exact congrArg (Except.map some)
      (flash_isophase count (charToColor c) (numeralValue ds * 1000) (by omega) (by omega) hmax)
  · simp only [List.mem_cons, List.mem_singleton, List.not_mem_nil, or_false] at hc
    rcases hc with h | h | h | h <;> rw [h] <;> decide

/-- C6, at "Iso R 5s" and the tick 2600 (off, the second half of 5000 ms). -/
theorem isophase_equal_intervals_witness :
    (parse 2600 "Iso R 5s".toList
        = .ok (some (if 2600 % (numeralValue ['5'] * 1000) < numeralValue ['5'] * 1000 / 2
            then charToColor 'R' else OFF))
      ∧ charToColor 'R' ≠ OFF)
    ∧ parse 2600 "Iso R 5s".toList = .ok (some OFF)
    ∧ parse 2400 "Iso R 5s".toList = .ok (some RED) :=
  ⟨isophase_equal_intervals 'R' (by decide) ['5'] (by decide) (by decide) (by decide)
      (by decide) (by decide) 2600,
    by decide, by decide⟩

/-- C6 as stated fails: the period of 10^23 seconds is even, positive and a
whole number of seconds, its isophase string has 31 characters, and `parse`
returns at its length check without showing any colour; the period of 10^19
seconds fits the length check and is outside the range of `int`. -/
theorem isophase_long_period_counterexample :
    "Iso R 100000000000000000000000s".length = 31
    ∧ parse 0 "Iso R 100000000000000000000000s".toList = .ok none
    ∧ parse 0 "Iso R 10000000000000000000s".toList = .error .intRange := by decide

/-! ## C7: occulting against flashing -/

/-- C7 (amended). For every tail made of a well-formed group qualifier (or
none), a colour letter `c` among R, G, Y, W and a period text that
`aToPeriod` reads as `P > 0` (through the `float` arithmetic of the code, and
inside the range of `int`), the whole string being at most 30 characters
long: "Fl " and "Oc " followed by the tail both show a colour at every tick
count, the occulting one is off exactly when the flashing one is the colour
of `c`, and is the colour of `c` exactly when the flashing one is off; at
count 0 the occulting light is off when its first group count is at least 1. -/
theorem occulting_swaps_flashing (G : GroupQualifier) (hG : G.wellFormed)
    (c : Char) (hc : c ∈ ['R', 'G', 'Y', 'W']) (per : List Char) (P : Int)
    (hper : aToPeriod per = .ok P) (hP : 0 < P)
    (hlen : (G.text ++ c :: ' ' :: per).length ≤ 27) (count : Nat) :
    ∃ r_fl r_oc : Nat,
      parse count ('F' :: 'l' :: ' ' :: (G.text ++ c :: ' ' :: per)) = .ok (some r_fl)
      ∧ parse count ('O' :: 'c' :: ' ' :: (G.text ++ c :: ' ' :: per)) = .ok (some r_oc)
      ∧ (r_oc = OFF ↔ r_fl = charToColor c)
      ∧ (r_oc = charToColor c ↔ r_fl = OFF)
      ∧ (count = 0 → 1 ≤ G.group1 → r_oc = OFF) := by
  have hne : c ≠ '(' := by
    simp only [List.mem_cons, List.mem_singleton, List.not_mem_nil, or_false] at hc
    rcases hc with h | h | h | h <;> rw [h] <;> decide
  have hcol : charToColor c ≠ OFF := charToColor_ne_OFF c
  obtain ⟨_, hPmax⟩ := aToPeriod_range per P hper
  obtain ⟨p, rfl⟩ : ∃ p : Nat, P = (p : Int) := ⟨P.toNat, by omega⟩
  have hp : 0 < p := by omega
  have hpmax : p ≤ 32767 := by omega
  have hargsF := groupArgs_tail ['F', 'l', ' '] G hG c ' ' hne per p hper
  have hargsO := groupArgs_tail ['O', 'c', ' '] G hG c ' ' hne per p hper
  simp only [List.cons_append, List.nil_append, List.length_cons, List.length_nil] at hargsF hargsO
  have hcallF : parseCall ('F' :: 'l' :: ' ' :: (G.text ++ c :: ' ' :: per))
      = .ok (some (.flash (charToColor c) OFF G.group1 G.group2
          ((500 : Nat) : Int) ((1500 : Nat) : Int) (p : Int))) := by
    simp only [parseCall, List.length_cons, peek, List.getD_cons_zero, List.getD_cons_succ]
    rw [if_neg (by omega)]
    simp [hargsF, bind, Except.bind, pure, Except.pure, FLASH_DURATION, FLASH_PERIOD]
  have hcallO : parseCall ('O' :: 'c' :: ' ' :: (G.text ++ c :: ' ' :: per))
      = .ok (some (.flash OFF (charToColor c) G.group1 G.group2
          ((500 : Nat) : Int) ((1500 : Nat) : Int) (p : Int))) := by
    simp only [parseCall, List.length_cons, peek, List.getD_cons_zero, List.getD_cons_succ]
    rw [if_neg (by omega)]
    simp [hargsO, bind, Except.bind, pure, Except.pure, FLASH_DURATION, FLASH_PERIOD]
  have hF := flash_val_lit count (charToColor c) OFF G.group1 G.group2 500 1500 p hp hpmax
    (by omega) (by omega) G.group2_lower
  have hO := flash_val_lit count OFF (charToColor c) G.group1 G.group2 500 1500 p hp hpmax
    (by omega) (by omega) G.group2_lower
  refine ⟨if flashLit count G.group1 G.group2 500 1500 p = true then charToColor c else OFF,
    if flashLit count G.group1 G.group2 500 1500 p = true then OFF else charToColor c,
    ?_, ?_, ?_, ?_, ?_⟩
  · rw [parse_of_call count _ _ hcallF]; exact congrArg (Except.map some) hF
  · rw [parse_of_call count _ _ hcallO]; exact congrArg (Except.map some) hO
  · by_cases hl : flashLit count G.group1 G.group2 500 1500 p = true
    · simp [hl]
    · simp [hl, hcol, Ne.symm hcol]
  · by_cases hl : flashLit count G.group1 G.group2 500 1500 p = true
    · simp [hl, hcol, Ne.symm hcol]
    · simp [hl]
  · intro h0 hg
    have hl : flashLit count G.group1 G.group2 500 1500 p = true := by
      subst h0
      unfold flashLit
      simp only [Nat.zero_mod, Nat.mul_zero, hp, if_true, Nat.zero_div]
      simp
      omega
    simp [hl]

/-- C7, at the tail "(2+1) R 6s" and the tick 0, and at the tail "R 2.5s", a
fraction of a second, and the tick 700.  The period text "32.7679999s" is
outside the theorem: its product by 1000 is the `float` 32768.0, which is
outside `int`. -/
theorem occulting_swaps_flashing_witness :
    (∃ r_fl r_oc : Nat,
      parse 0 ('F' :: 'l' :: ' ' :: ((GroupQualifier.composite '2' '1').text
          ++ 'R' :: ' ' :: "6s".toList)) = .ok (some r_fl)
      ∧ parse 0 ('O' :: 'c' :: ' ' :: ((GroupQualifier.composite '2' '1').text
          ++ 'R' :: ' ' :: "6s".toList)) = .ok (some r_oc)
      ∧ (r_oc = OFF ↔ r_fl = charToColor 'R')
      ∧ (r_oc = charToColor 'R' ↔ r_fl = OFF)
      ∧ (0 = 0 → 1 ≤ (GroupQualifier.composite '2' '1').group1 → r_oc = OFF))
    ∧ (∃ r_fl r_oc : Nat,
      parse 700 ('F' :: 'l' :: ' ' :: (GroupQualifier.absent.text
          ++ 'R' :: ' ' :: "2.5s".toList)) = .ok (some r_fl)
      ∧ parse 700 ('O' :: 'c' :: ' ' :: (GroupQualifier.absent.text
          ++ 'R' :: ' ' :: "2.5s".toList)) = .ok (some r_oc)
      ∧ (r_oc = OFF ↔ r_fl = charToColor 'R')
      ∧ (r_oc = charToColor 'R' ↔ r_fl = OFF)
      ∧ (700 = 0 → 1 ≤ GroupQualifier.absent.group1 → r_oc = OFF))
    ∧ aToPeriod "32.7679999s".toList = .error .intRange :=
  ⟨occulting_swaps_flashing (GroupQualifier.composite '2' '1') (by decide) 'R' (by decide)
      "6s".toList 6000 (by decide) (by decide) (by decide) 0,
    occulting_swaps_flashing GroupQualifier.absent (by decide) 'R' (by decide)
      "2.5s".toList 2500 (by decide) (by decide) (by decide) 700,
    by decide⟩

/-- C7 as stated fails: with the group qualifier "(0)" the occulting light
"Oc (0) G 6s" is green, not off, at count 0 (the flashing light "Fl (0) G 6s"
is off there). -/
theorem occulting_zero_group_counterexample :
    parse 0 "Oc (0) G 6s".toList = .ok (some GREEN)
    ∧ parse 0 "Fl (0) G 6s".toList = .ok (some OFF)
    ∧ GREEN ≠ OFF := by decide

/-! ## C8: the long flash of the second group -/

theorem flash_long_val (count on_color off_color : Nat) (group1 on_time off_time : Int)
    (P : Nat) (hP : 2 ≤ P) (hPmax : P ≤ 32767)
    (hS : 0 < on_time + off_time) (hSmax : on_time + off_time ≤ 32767)
    (hhalf : P ≤ 2 * (count % P)) :
    flash count on_color off_color group1 (-1) on_time off_time (P : Int) =
      .ok (if (count % P % (P / 2)) / 4000 < 1 ∧ (count % P % (P / 2)) % 4000 ≤ 2000
        then on_color else off_color) := by
  have hpos : count % P < P := Nat.mod_lt _ (by omega)
  have hP2 : 0 < P / 2 := by omega
  have hq : count % P % (P / 2) < P / 2 := Nat.mod_lt _ hP2
  have hu : toUnsigned (on_time + off_time) ≠ 0 := by unfold toUnsigned; omega
  have hm : (count % P * 2) % 65536 = count % P * 2 := Nat.mod_eq_of_lt (by omega)
  have e1 : LONG_FLASH_DURATION + (LONG_FLASH_PERIOD - LONG_FLASH_DURATION)
      = ((4000 : Nat) : Int) := by decide
  have e2 : LONG_FLASH_DURATION = ((2000 : Nat) : Int) := by decide
  have hc1 : checkInt (-(-1 : Int)) = .ok 1 := by decide
  unfold flash
  rw [toUnsigned_natCast P (by omega), if_neg (by omega),
    checkInt_of_range _ (by omega) hSmax]
  simp only [UINT_SIZE]
  rw [if_neg hu, hm, if_pos (by omega)]
  simp only [show ((-1 : Int) < 0) from by decide, if_true, hc1, Except.map,
    tdiv_two_natCast, toUnsigned_natCast (P / 2) (by omega : P / 2 < 65536), e1]
  simp only [e2]
  rw [if_neg (by omega), toUnsigned_natCast 4000 (by omega),
    activeColor_val _ _ _ _ _ _ (by omega) (by omega) (by omega)]
  congr 1
  by_cases h : count % P % (P / 2) / 4000 < 1 ∧ count % P % (P / 2) % 4000 ≤ 2000
  · rw [if_pos h, if_pos]
    exact ⟨by omega, h.2⟩
  · rw [if_neg h, if_neg]
    rintro ⟨h1, h2⟩
    exact h ⟨by omega, h2⟩

theorem quick_six_val (count : Nat) :
    parse count "Q (6+LFl) R 15s".toList =
      .ok (some (
        if count % 15000 < 7500 then
          (if count % 15000 / 1000 < 6 ∧ count % 15000 % 1000 ≤ 500 then RED else OFF)
        else if count % 15000 ≤ 9500 then RED else OFF)) := by
  have hcall : parseCall "Q (6+LFl) R 15s".toList
      = .ok (some (.flash RED OFF 6 (-1) ((500 : Nat) : Int) ((500 : Nat) : Int)
          ((15000 : Nat) : Int))) := by decide
  have hf : flash count RED OFF 6 (-1) ((500 : Nat) : Int) ((500 : Nat) : Int)
      ((15000 : Nat) : Int) = .ok (
        if count % 15000 < 7500 then
          (if count % 15000 / 1000 < 6 ∧ count % 15000 % 1000 ≤ 500 then RED else OFF)
        else if count % 15000 ≤ 9500 then RED else OFF) := by
    rw [flash_val count RED OFF 6 (-1) 500 500 15000 (by omega) (by omega) (by omega) (by omega)
      (by omega)]
    have hpos : count % 15000 < 15000 := Nat.mod_lt _ (by omega)
    congr 1
    by_cases hh : count % 15000 < 7500
    · rw [if_pos (by omega), if_pos hh]
      by_cases h : count % 15000 / 1000 < 6 ∧ count % 15000 % 1000 ≤ 500
      · rw [if_pos h, if_pos]; exact ⟨by omega, by omega⟩
      · rw [if_neg h, if_neg]; rintro ⟨h1, h2⟩; exact h ⟨by omega, by omega⟩
    · rw [if_neg (by omega), if_pos (by omega), if_neg hh]
      by_cases h : count % 15000 ≤ 9500
      · rw [if_pos h, if_pos]; exact ⟨by omega, by omega⟩
      · rw [if_neg h, if_neg]; rintro ⟨h1, h2⟩; omega
  rw [parse_of_call count _ _ hcall]
  exact congrArg (Except.map some) hf

/-- C8. For a flash pattern whose second group is a long flash
(`group2 = -1`), with period `2 ≤ P` and sub-period `on_time + off_time > 0`
(both `int`s, hence at most 32767), at every tick count whose position
`count % P` lies in the second half, `flash` writes `on_color` if
`q / 4000 < 1` and `q % 4000 ≤ 2000`, where `q = (count % P) % (P / 2)`, and
`off_color` otherwise, whatever `on_time` and `off_time` are.  And
"Q (6+LFl) R 15s" is red on the positions 7500 to 9500 and off on the rest of
the second half of its period of 15000. -/
theorem flash_long_second_half (count on_color off_color : Nat)
    (group1 on_time off_time : Int) (P : Nat) (hP : 2 ≤ P) (hPmax : P ≤ 32767)
    (hS : 0 < on_time + off_time) (hSmax : on_time + off_time ≤ 32767)
    (hhalf : P ≤ 2 * (count % P)) :
    flash count on_color off_color group1 (-1) on_time off_time (P : Int) =
        .ok (if (count % P % (P / 2)) / 4000 < 1 ∧ (count % P % (P / 2)) % 4000 ≤ 2000
          then on_color else off_color)
    ∧ ∀ t : Nat, parse t "Q (6+LFl) R 15s".toList =
        .ok (some (
          if t % 15000 < 7500 then
            (if t % 15000 / 1000 < 6 ∧ t % 15000 % 1000 ≤ 500 then RED else OFF)
          else if t % 15000 ≤ 9500 then RED else OFF)) :=
  ⟨flash_long_val count on_color off_color group1 on_time off_time P hP hPmax hS hSmax hhalf,
    quick_six_val⟩

/-- C8, at the ticks 8000 (inside the long flash) and 12000 (after it) of
"Q (6+LFl) R 15s". -/
theorem flash_long_second_half_witness :
    flash 8000 RED OFF 6 (-1) 500 500 ((15000 : Nat) : Int) = .ok RED
    ∧ flash 12000 RED OFF 6 (-1) 500 500 ((15000 : Nat) : Int) = .ok OFF
    ∧ parse 9500 "Q (6+LFl) R 15s".toList = .ok (some RED)
    ∧ parse 9501 "Q (6+LFl) R 15s".toList = .ok (some OFF) :=
  ⟨(flash_long_second_half 8000 RED OFF 6 500 500 15000 (by decide) (by decide) (by decide)
      (by decide) (by decide)).1.trans (by decide),
    (flash_long_second_half 12000 RED OFF 6 500 500 15000 (by decide) (by decide) (by decide)
      (by decide) (by decide)).1.trans (by decide),
    ((flash_long_second_half 8000 RED OFF 6 500 500 15000 (by decide) (by decide) (by decide)
      (by decide) (by decide)).2 9500).trans (by decide),
    ((flash_long_second_half 8000 RED OFF 6 500 500 15000 (by decide) (by decide) (by decide)
      (by decide) (by decide)).2 9501).trans (by decide)⟩

/-! ## C9: the Morse evaluator -/

theorem exists_lt_succ_shift (n : Nat) (Q : Nat → Prop) :
    (∃ i, i < n + 1 ∧ Q i) ↔ Q 0 ∨ ∃ j, j < n ∧ Q (j + 1) := by
  constructor
  · rintro ⟨i, hi, hq⟩
    cases i with
    | zero => exact Or.inl hq
    | succ j => exact Or.inr ⟨j, by omega, hq⟩
  · rintro (h | ⟨j, hj, hq⟩)
    · exact ⟨0, by omega, h⟩
    · exact ⟨j + 1, by omega, hq⟩

/-- The loop of `morse`, started at `s0`, lights the windows of the code
shifted by `s0`. -/
theorem morseLoop_windows (count color : Nat) (code : List Char) (s0 : Nat)
    (hb : s0 + 2000 * code.length ≤ 65535) :
    morseLoop count color code (s0 : Int) =
      if ∃ i, i < code.length ∧ s0 + windowStart code i ≤ count ∧
          count < s0 + windowStart code i + symbolLength (code.getD i '.')
      then color else OFF := by
  induction code generalizing s0 with
  | nil => simp [morseLoop]
  | cons t rest ih =>
    have hlen : symbolLength t = 500 ∨ symbolLength t = 1500 := by
      unfold symbolLength; split_ifs <;> simp
    have hoff : (s0 : Int) + (if t = '.' then DOT_TIME else DASH_TIME)
        = ((s0 + symbolLength t : Nat) : Int) := by
      unfold symbolLength DOT_TIME DASH_TIME MORSE_UNIT
      split_ifs <;> push_cast <;> ring
    have hnext : ((s0 + symbolLength t : Nat) : Int) + SPACE_TIME
        = ((s0 + symbolLength t + 500 : Nat) : Int) := by
      unfold SPACE_TIME MORSE_UNIT; push_cast; ring
    simp only [List.length_cons] at hb
    simp only [morseLoop]
    rw [hoff, hnext, toUnsigned_natCast s0 (by omega),
      toUnsigned_natCast (s0 + symbolLength t) (by omega), ih (s0 + symbolLength t + 500) (by omega)]
    have h0 : windowStart (t :: rest) 0 = 0 := by simp [windowStart]
    have hs : ∀ j, windowStart (t :: rest) (j + 1) = symbolLength t + 500 + windowStart rest j := by
      intro j; simp [windowStart]
    have hR : (∃ i, i < (t :: rest).length ∧ s0 + windowStart (t :: rest) i ≤ count ∧
          count < s0 + windowStart (t :: rest) i + symbolLength ((t :: rest).getD i '.'))
        ↔ ((s0 ≤ count ∧ count < s0 + symbolLength t) ∨
          ∃ i, i < rest.length ∧ s0 + symbolLength t + 500 + windowStart rest i ≤ count ∧
            count < s0 + symbolLength t + 500 + windowStart rest i
              + symbolLength (rest.getD i '.')) := by
      rw [List.length_cons, exists_lt_succ_shift]
      simp only [h0, hs, List.getD_cons_zero, List.getD_cons_succ, Nat.add_zero]
      constructor
      · rintro (h | ⟨i, hi, h1, h2⟩)
        · exact Or.inl h
        · exact Or.inr ⟨i, hi, by omega, by omega⟩
      · rintro (h | ⟨i, hi, h1, h2⟩)
        · exact Or.inl h
        · exact Or.inr ⟨i, hi, by omega, by omega⟩
    by_cases hin : s0 ≤ count ∧ count < s0 + symbolLength t
    · rw [if_pos hin, if_pos (hR.mpr (Or.inl hin))]
    · rw [if_neg hin]
      by_cases hex : ∃ i, i < rest.length ∧
          s0 + symbolLength t + 500 + windowStart rest i ≤ count ∧
          count < s0 + symbolLength t + 500 + windowStart rest i + symbolLength (rest.getD i '.')
      · rw [if_pos hex, if_pos (hR.mpr (Or.inr hex))]
      · rw [if_neg hex, if_neg]
        intro h
        rcases hR.mp h with h' | h'
        · exact hin h'
        · exact hex h'

theorem alpha_length_le : ∀ i, i < 26 → (alpha.getD i []).length ≤ 4 := by decide

/-- The value of `morse` on a letter of the table and a positive period. -/
theorem morse_val (count color : Nat) (L : Char) (P : Nat)
    (hL : ('A' : Char).toNat ≤ L.toNat ∧ L.toNat ≤ ('Z' : Char).toNat)
    (hP : 0 < P) (hPmax : P ≤ 32767) :
    morse count color L (P : Int) =
      .ok (if inMorseWindow (alpha.getD (L.toNat - ('A' : Char).toNat) []) (count % P)
        then color else OFF) := by
  have hA : ('A' : Char).toNat = 65 := by decide
  have hZ : ('Z' : Char).toNat = 90 := by decide
  rw [hA, hZ] at hL
  rw [hA]
  have hidx : ((L.toNat : Int) - ((65 : Nat) : Int)).toNat = L.toNat - 65 := by omega
  have hlen := alpha_length_le (L.toNat - 65) (by omega)
  unfold morse
  rw [toUnsigned_natCast P (by omega), if_neg (by omega), hA]
  simp only []
  rw [if_neg (by omega), hidx]
  have h := morseLoop_windows (count % P) color (alpha.getD (L.toNat - 65) []) 0 (by omega)
  simp only [Nat.zero_add] at h
  have hz : ((0 : Nat) : Int) = 0 := rfl
  rw [hz] at h
  rw [h]
  rfl

theorem inMorseWindow_A (pos : Nat) :
    inMorseWindow (alpha.getD (('A' : Char).toNat - ('A' : Char).toNat) []) pos
      ↔ (pos < 500 ∨ (1000 ≤ pos ∧ pos < 2500)) := by
  have hcode : alpha.getD (('A' : Char).toNat - ('A' : Char).toNat) [] = ['.', '-'] := by decide
  rw [hcode]
  unfold inMorseWindow
  have e0 : windowStart ['.', '-'] 0 = 0 := by decide
  have e1 : windowStart ['.', '-'] 1 = 1000 := by decide
  have l0 : symbolLength ((['.', '-'] : List Char).getD 0 '.') = 500 := by decide
  have l1 : symbolLength ((['.', '-'] : List Char).getD 1 '.') = 1500 := by decide
  constructor
  · rintro ⟨i, hi, h1, h2⟩
    simp only [List.length_cons, List.length_nil] at hi
    have hi' : i = 0 ∨ i = 1 := by omega
    rcases hi' with rfl | rfl
    · rw [e0, l0] at h2; left; omega
    · rw [e1] at h1; rw [e1, l1] at h2; right; omega
  · rintro (h | ⟨h1, h2⟩)
    · exact ⟨0, by decide, by rw [e0]; omega, by rw [e0, l0]; omega⟩
    · exact ⟨1, by decide, by rw [e1]; omega, by rw [e1, l1]; omega⟩

theorem morse_letter_A (count color : Nat) :
    morse count color 'A' ((6000 : Nat) : Int) =
      .ok (if count % 6000 < 500 ∨ (1000 ≤ count % 6000 ∧ count % 6000 < 2500)
        then color else OFF) := by
  rw [morse_val count color 'A' 6000 (by decide) (by decide) (by decide)]
  congr 1
  by_cases h : count % 6000 < 500 ∨ (1000 ≤ count % 6000 ∧ count % 6000 < 2500)
  · rw [if_pos h, if_pos ((inMorseWindow_A _).mpr h)]
  · rw [if_neg h, if_neg (fun h' => h ((inMorseWindow_A _).mp h'))]

/-- C9. For every letter `L` from A to Z, every colour, every period
`0 < P` (an `int`, hence at most 32767) and every tick count, `morse` writes
the colour if `count % P` lies in the window `[start_i, start_i + len_i)` of a
symbol of the code of `L` (500 for a dot, 1500 for a dash, each followed by a
gap of 500), and off otherwise.  For the letter A and `P = 6000` the light is
lit on `[0, 500)` and `[1000, 2500)` and off elsewhere. -/
theorem morse_windows (count color : Nat) (L : Char) (P : Nat)
    (hL : ('A' : Char).toNat ≤ L.toNat ∧ L.toNat ≤ ('Z' : Char).toNat)
    (hP : 0 < P) (hPmax : P ≤ 32767) :
    morse count color L (P : Int) =
        .ok (if inMorseWindow (alpha.getD (L.toNat - ('A' : Char).toNat) []) (count % P)
          then color else OFF)
    ∧ ∀ t : Nat, morse t color 'A' ((6000 : Nat) : Int) =
        .ok (if t % 6000 < 500 ∨ (1000 ≤ t % 6000 ∧ t % 6000 < 2500) then color else OFF) :=
  ⟨morse_val count color L P hL hP hPmax, fun t => morse_letter_A t color⟩

/-- C9, at the letter K, the period 6000 and the tick 2200 (the dot of
"-.-"), and at the letter A. -/
theorem morse_windows_witness :
    morse 2200 WHITE 'K' ((6000 : Nat) : Int) = .ok WHITE
    ∧ morse 1700 WHITE 'K' ((6000 : Nat) : Int) = .ok OFF
    ∧ morse 0 WHITE 'A' ((6000 : Nat) : Int) = .ok WHITE
    ∧ morse 700 WHITE 'A' ((6000 : Nat) : Int) = .ok OFF
    ∧ morse 1000 WHITE 'A' ((6000 : Nat) : Int) = .ok WHITE
    ∧ morse 2500 WHITE 'A' ((6000 : Nat) : Int) = .ok OFF :=
  ⟨(morse_windows 2200 WHITE 'K' 6000 (by decide) (by decide) (by decide)).1.trans (by decide),
    (morse_windows 1700 WHITE 'K' 6000 (by decide) (by decide) (by decide)).1.trans (by decide),
    ((morse_windows 0 WHITE 'K' 6000 (by decide) (by decide) (by decide)).2 0).trans (by decide),
    ((morse_windows 0 WHITE 'K' 6000 (by decide) (by decide) (by decide)).2 700).trans
      (by decide),
    ((morse_windows 0 WHITE 'K' 6000 (by decide) (by decide) (by decide)).2 1000).trans
      (by decide),
    ((morse_windows 0 WHITE 'K' 6000 (by decide) (by decide) (by decide)).2 2500).trans
      (by decide)⟩

/-! ## C10: Morse letters outside A-Z -/

/-- For every character `x` outside A-Z, "Mo (x) c <period>" is not rejected:
`parse` calls `morse` with the letter `x`, and the lookup `alpha[x - 'A']` of
`morse` is outside the table. -/
theorem parse_morse_unchecked (x : Char)
    (hx : x.toNat < ('A' : Char).toNat ∨ ('Z' : Char).toNat < x.toNat)
    (c : Char) (per : List Char) (P : Int) (hper : aToPeriod per = .ok P) (hP : 0 < P)
    (hlen : per.length ≤ 21) (count : Nat) :
    parseCall ('M' :: 'o' :: ' ' :: '(' :: x :: ')' :: ' ' :: c :: ' ' :: per)
        = .ok (some (.morse (charToColor c) x P))
    ∧ morse count (charToColor c) x P = .error .outOfBounds
    ∧ parse count ('M' :: 'o' :: ' ' :: '(' :: x :: ')' :: ' ' :: c :: ' ' :: per)
        = .error .outOfBounds := by
  have hA : ('A' : Char).toNat = 65 := by decide
  have hZ : ('Z' : Char).toNat = 90 := by decide
  rw [hA, hZ] at hx
  obtain ⟨_, hPmax⟩ := aToPeriod_range per P hper
  have hcall : parseCall ('M' :: 'o' :: ' ' :: '(' :: x :: ')' :: ' ' :: c :: ' ' :: per)
      = .ok (some (.morse (charToColor c) x P)) := by
    simp only [parseCall, List.length_cons, peek, List.getD_cons_zero, List.getD_cons_succ]
    rw [if_neg (by omega)]
    simp [rd, advance, hper, bind, Except.bind, pure, Except.pure]
  have hm : morse count (charToColor c) x P = .error .outOfBounds := by
    have hu : toUnsigned P ≠ 0 := by unfold toUnsigned; omega
    unfold morse
    rw [if_neg hu, hA]
    simp only []
    rw [if_pos (by omega)]
  refine ⟨hcall, hm, ?_⟩
  rw [parse_of_call count _ _ hcall]
  show (morse count (charToColor c) x P).map some = _
  rw [hm]
  rfl

/-- C10. The code at "Mo (a) W 6s": `parse` does not reject the lower-case
letter, it calls `morse` with `ch = 'a'`, and `morse` reads `alpha[32]`,
outside the 26 entries of the table. -/
theorem morse_lowercase_reaches_table :
    parseCall "Mo (a) W 6s".toList = .ok (some (.morse WHITE 'a' 6000))
    ∧ morse 0 WHITE 'a' 6000 = .error .outOfBounds
    ∧ parse 0 "Mo (a) W 6s".toList = .error .outOfBounds := by decide

/-! ## Lemmas on the grouped branches -/

theorem colour_letter_ne_paren (c : Char) (hc : c ∈ ['R', 'G', 'Y', 'W']) : c ≠ '(' := by
  simp only [List.mem_cons, List.mem_singleton, List.not_mem_nil, or_false] at hc
  rcases hc with h | h | h | h <;> rw [h] <;> decide

/-- On a positive period and a positive sub-period inside `int`, `flash`
returns a colour. -/
theorem flash_defined (count a b : Nat) (g1 g2 : Int) (ton toff P : Nat)
    (hP : 0 < P) (hPmax : P ≤ 32767) (hS : 0 < ton + toff) (hSmax : ton + toff ≤ 32767)
    (hg2 : -32768 < g2) :
    ∃ col : Nat, flash count a b g1 g2 (ton : Int) (toff : Int) (P : Int) = .ok col :=
  ⟨_, flash_val_lit count a b g1 g2 ton toff P hP hPmax hS hSmax hg2⟩

theorem groupedClass_text_le (K : GroupedClass) : K.text.length ≤ 5 := by
  cases K <;> decide

theorem groupQualifier_text_le (G : GroupQualifier) : G.text.length ≤ 8 := by
  cases G <;> simp [GroupQualifier.text]

/-- The dispatch of `parse` on a class token: when the class takes its
grouped branch (`Fl`, `L.Fl`, `Oc` always; `Q`, `VQ`, `UQ` before a `(`), the
call is `flash` on the results of the shared statements. -/
theorem parseCall_grouped_dispatch (K : GroupedClass) (tail : List Char)
    (hbranch : K.qualifierOptional = true ∨ tail.head? = some '(')
    (hlen : (K.text ++ tail).length ≤ 30) :
    parseCall (K.text ++ tail) =
      match groupArgs (K.text ++ tail) K.text.length with
      | .ok (g1, g2, col, P) =>
        .ok (some (.flash (K.onColor col) (K.offColor col) g1 g2 K.onTime K.offTime P))
      | .error e => .error e := by
  have hhead : K.qualifierOptional = false → ∃ rest, tail = '(' :: rest := by
    intro hK
    rcases hbranch with h | h
    · rw [hK] at h; cases h
    · cases tail with
      | nil => simp at h
      | cons a rest => simp at h; exact ⟨rest, by rw [h]⟩
  cases K with
  | Q =>
    obtain ⟨rest, rfl⟩ := hhead rfl
    simp only [GroupedClass.text, List.cons_append, List.nil_append, List.length_cons,
      List.length_nil] at hlen ⊢
    unfold parseCall
    simp only [List.length_cons]
    rw [if_neg (by omega)]
    cases hg : groupArgs ('Q' :: ' ' :: '(' :: rest) (0 + 1 + 1) with
    | error e =>
      simp [peek, hg, bind, Except.bind]
    | ok r =>
      obtain ⟨g1, g2, col, P⟩ := r
      simp [peek, hg, bind, Except.bind, pure, Except.pure, GroupedClass.onColor,
        GroupedClass.offColor, GroupedClass.onTime, GroupedClass.offTime, QUICK_DURATION,
        QUICK_PERIOD]
  | VQ =>
    obtain ⟨rest, rfl⟩ := hhead rfl
    simp only [GroupedClass.text, List.cons_append, List.nil_append, List.length_cons,
      List.length_nil] at hlen ⊢
    unfold parseCall
    simp only [List.length_cons]
    rw [if_neg (by omega)]
    cases hg : groupArgs ('V' :: 'Q' :: ' ' :: '(' :: rest) (0 + 1 + 1 + 1) with
    | error e =>
      simp [peek, hg, bind, Except.bind]
    | ok r =>
      obtain ⟨g1, g2, col, P⟩ := r
      simp [peek, hg, bind, Except.bind, pure, Except.pure, GroupedClass.onColor,
        GroupedClass.offColor, GroupedClass.onTime, GroupedClass.offTime, VERY_QUICK_DURATION,
        VERY_QUICK_PERIOD]
  | UQ =>
    obtain ⟨rest, rfl⟩ := hhead rfl
    simp only [GroupedClass.text, List.cons_append, List.nil_append, List.length_cons,
      List.length_nil] at hlen ⊢
    unfold parseCall
    simp only [List.length_cons]
    rw [if_neg (by omega)]
    cases hg : groupArgs ('U' :: 'Q' :: ' ' :: '(' :: rest) (0 + 1 + 1 + 1) with
    | error e =>
      simp [peek, hg, bind, Except.bind]
    | ok r =>
      obtain ⟨g1, g2, col, P⟩ := r
      simp [peek, hg, bind, Except.bind, pure, Except.pure, GroupedClass.onColor,
        GroupedClass.offColor, GroupedClass.onTime, GroupedClass.offTime, ULTRA_QUICK_DURATION,
        ULTRA_QUICK_PERIOD]
  | Fl =>
    simp only [GroupedClass.text, List.cons_append, List.nil_append, List.length_cons,
      List.length_nil] at hlen ⊢
    unfold parseCall
    simp only [List.length_cons]
    rw [if_neg (by omega)]
    cases hg : groupArgs ('F' :: 'l' :: ' ' :: tail) (0 + 1 + 1 + 1) with
    | error e =>
      simp [peek, hg, bind, Except.bind]
    | ok r =>
      obtain ⟨g1, g2, col, P⟩ := r
      simp [peek, hg, bind, Except.bind, pure, Except.pure, GroupedClass.onColor,
        GroupedClass.offColor, GroupedClass.onTime, GroupedClass.offTime, FLASH_DURATION,
        FLASH_PERIOD]
  | LFl =>
    simp only [GroupedClass.text, List.cons_append, List.nil_append, List.length_cons,
      List.length_nil] at hlen ⊢
    unfold parseCall
    simp only [List.length_cons]
    rw [if_neg (by omega)]
    cases hg : groupArgs ('L' :: '.' :: 'F' :: 'l' :: ' ' :: tail) (0 + 1 + 1 + 1 + 1 + 1) with
    | error e =>
      simp [peek, hg, bind, Except.bind]
    | ok r =>
      obtain ⟨g1, g2, col, P⟩ := r
      simp [peek, hg, bind, Except.bind, pure, Except.pure, GroupedClass.onColor,
        GroupedClass.offColor, GroupedClass.onTime, GroupedClass.offTime, LONG_FLASH_DURATION,
        LONG_FLASH_PERIOD]
  | Oc =>
    simp only [GroupedClass.text, List.cons_append, List.nil_append, List.length_cons,
      List.length_nil] at hlen ⊢
    unfold parseCall
    simp only [List.length_cons]
    rw [if_neg (by omega)]
    cases hg : groupArgs ('O' :: 'c' :: ' ' :: tail) (0 + 1 + 1 + 1) with
    | error e =>
      simp [peek, hg, bind, Except.bind]
    | ok r =>
      obtain ⟨g1, g2, col, P⟩ := r
      simp [peek, hg, bind, Except.bind, pure, Except.pure, GroupedClass.onColor,
        GroupedClass.offColor, GroupedClass.onTime, GroupedClass.offTime, FLASH_DURATION,
        FLASH_PERIOD]

/-- The branches of `periodText` are those of `parseCall`: on a class token
that takes its grouped branch, the text is the one the shared statements
pass to `aToPeriod`. -/
theorem periodText_grouped_dispatch (K : GroupedClass) (tail : List Char)
    (hbranch : K.qualifierOptional = true ∨ tail.head? = some '(')
    (hlen : (K.text ++ tail).length ≤ 30) :
    periodText (K.text ++ tail) = (groupTail (K.text ++ tail) K.text.length).map some := by
  have hhead : K.qualifierOptional = false → ∃ rest, tail = '(' :: rest := by
    intro hK
    rcases hbranch with h | h
    · rw [hK] at h; cases h
    · cases tail with
      | nil => simp at h
      | cons a rest => simp at h; exact ⟨rest, by rw [h]⟩
  cases K with
  | Q =>
    obtain ⟨rest, rfl⟩ := hhead rfl
    simp only [GroupedClass.text, List.cons_append, List.nil_append, List.length_cons,
      List.length_nil] at hlen ⊢
    unfold periodText
    simp only [List.length_cons]
    rw [if_neg (by omega)]
    simp [peek]
  | VQ =>
    obtain ⟨rest, rfl⟩ := hhead rfl
    simp only [GroupedClass.text, List.cons_append, List.nil_append, List.length_cons,
      List.length_nil] at hlen ⊢
    unfold periodText
    simp only [List.length_cons]
    rw [if_neg (by omega)]
    simp [peek]
  | UQ =>
    obtain ⟨rest, rfl⟩ := hhead rfl
    simp only [GroupedClass.text, List.cons_append, List.nil_append, List.length_cons,
      List.length_nil] at hlen ⊢
    unfold periodText
    simp only [List.length_cons]
    rw [if_neg (by omega)]
    simp [peek]
  | Fl =>
    simp only [GroupedClass.text, List.cons_append, List.nil_append, List.length_cons,
      List.length_nil] at hlen ⊢
    unfold periodText
    simp only [List.length_cons]
    rw [if_neg (by omega)]
    simp [peek]
  | LFl =>
    simp only [GroupedClass.text, List.cons_append, List.nil_append, List.length_cons,
      List.length_nil] at hlen ⊢
    unfold periodText
    simp only [List.length_cons]
    rw [if_neg (by omega)]
    simp [peek]
  | Oc =>
    simp only [GroupedClass.text, List.cons_append, List.nil_append, List.length_cons,
      List.length_nil] at hlen ⊢
    unfold periodText
    simp only [List.length_cons]
    rw [if_neg (by omega)]
    simp [peek]

/-- The shared statements on a well-formed tail, whatever the period text:
the counts and the colour are decoded and the period is what `aToPeriod`
makes of the text; the text handed to `aToPeriod` is the period text. -/
theorem groupArgs_tail_any (pre : List Char) (G : GroupQualifier) (hG : G.wellFormed)
    (c sep : Char) (hc : c ≠ '(') (per : List Char) :
    groupArgs (pre ++ (G.text ++ c :: sep :: per)) pre.length
        = (aToPeriod per).map (fun P => (G.group1, G.group2, charToColor c, P))
    ∧ groupTail (pre ++ (G.text ++ c :: sep :: per)) pre.length = .ok per := by
  have hadv : advance (pre ++ (G.text ++ c :: sep :: per)) pre.length
      = .ok (G.text ++ c :: sep :: per) := by
    simp [advance]
  unfold groupArgs groupTail
  rw [hadv]
  cases hper : aToPeriod per with
  | error e =>
    cases G with
    | absent =>
      simp [GroupQualifier.text, aToGroups, peek, hc, advance, rd, hper, bind, Except.bind,
        pure, Except.pure, Except.map]
    | single d =>
      have hd : isdigit d = true := hG d (by simp [GroupQualifier.digits])
      simp [GroupQualifier.text, aToGroups, peek, hd, advance, rd, hper, bind, Except.bind,
        pure, Except.pure, Except.map]
    | composite d1 d2 =>
      have hd1 : isdigit d1 = true := hG d1 (by simp [GroupQualifier.digits])
      have hd2 : isdigit d2 = true := hG d2 (by simp [GroupQualifier.digits])
      simp [GroupQualifier.text, aToGroups, peek, hd1, hd2, advance, rd, hper, bind,
        Except.bind, pure, Except.pure, Except.map]
    | longFlash d =>
      have hd : isdigit d = true := hG d (by simp [GroupQualifier.digits])
      have hL : isdigit 'L' = false := by decide
      simp [GroupQualifier.text, aToGroups, peek, hd, hL, advance, rd, hper, bind,
        Except.bind, pure, Except.pure, Except.map]
  | ok P =>
    have h := groupArgs_tail pre G hG c sep hc per P hper
    unfold groupArgs at h
    rw [hadv] at h
    refine ⟨h, ?_⟩
    cases G with
    | absent =>
      simp [GroupQualifier.text, aToGroups, peek, hc, advance, rd, bind, Except.bind,
        pure, Except.pure]
    | single d =>
      have hd : isdigit d = true := hG d (by simp [GroupQualifier.digits])
      simp [GroupQualifier.text, aToGroups, peek, hd, advance, rd, bind, Except.bind,
        pure, Except.pure]
    | composite d1 d2 =>
      have hd1 : isdigit d1 = true := hG d1 (by simp [GroupQualifier.digits])
      have hd2 : isdigit d2 = true := hG d2 (by simp [GroupQualifier.digits])
      simp [GroupQualifier.text, aToGroups, peek, hd1, hd2, advance, rd, bind,
        Except.bind, pure, Except.pure]
    | longFlash d =>
      have hd : isdigit d = true := hG d (by simp [GroupQualifier.digits])
      have hL : isdigit 'L' = false := by decide
      simp [GroupQualifier.text, aToGroups, peek, hd, hL, advance, rd, bind,
        Except.bind, pure, Except.pure]

/-- The dispatch of `parse` on a class token followed by a well-formed tail:
the grouped branch of the class is taken and `flash` is called with the
decoded counts, the times and colours of the class and the parsed period. -/
theorem parseCall_grouped (K : GroupedClass) (G : GroupQualifier) (hG : G.wellFormed)
    (hKG : G = .absent → K.qualifierOptional = true)
    (c : Char) (hc : c ≠ '(') (per : List Char) (P : Int) (hper : aToPeriod per = .ok P)
    (hlen : (K.text ++ (G.text ++ c :: ' ' :: per)).length ≤ 30) :
    parseCall (K.text ++ (G.text ++ c :: ' ' :: per))
      = .ok (some (.flash (K.onColor (charToColor c)) (K.offColor (charToColor c))
          G.group1 G.group2 K.onTime K.offTime P)) := by
  have hbranch : K.qualifierOptional = true ∨ (G.text ++ c :: ' ' :: per).head? = some '(' := by
    cases G with
    | absent => exact Or.inl (hKG rfl)
    | single d => right; simp [GroupQualifier.text]
    | composite d1 d2 => right; simp [GroupQualifier.text]
    | longFlash d => right; simp [GroupQualifier.text]
  rw [parseCall_grouped_dispatch K _ hbranch hlen,
    groupArgs_tail K.text G hG c ' ' hc per P hper]

/-! ## C11: the group decoder -/

/-- C11. For all decimal digits `d`, `d1`, `d2` and any following text:
`aToGroups` on "(d)…" gives the groups `(d, 0)` and returns 4, on "(d1+d2)…"
the groups `(d1, d2)` and returns 6, on "(d+LFl)…" the groups `(d, -1)` and
returns 8; on a text that does not start with `(` it gives `(1, 0)` and
returns 0. -/
theorem aToGroups_shapes (d d1 d2 : Char) (rest : List Char)
    (hd : isdigit d = true) (hd1 : isdigit d1 = true) (hd2 : isdigit d2 = true) :
    aToGroups ('(' :: d :: ')' :: rest) = .ok (4, ((d.toNat - 48 : Nat) : Int), 0)
    ∧ aToGroups ('(' :: d1 :: '+' :: d2 :: ')' :: rest)
        = .ok (6, ((d1.toNat - 48 : Nat) : Int), ((d2.toNat - 48 : Nat) : Int))
    ∧ aToGroups ('(' :: d :: '+' :: 'L' :: 'F' :: 'l' :: ')' :: rest)
        = .ok (8, ((d.toNat - 48 : Nat) : Int), -1)
    ∧ ∀ text : List Char, text.head? ≠ some '(' → aToGroups text = .ok (0, 1, 0) := by
  have hL : isdigit 'L' = false := by decide
  refine ⟨?_, ?_, ?_, ?_⟩
  · have ha := atoi_digit d ')' rest hd (by decide)
    simp [aToGroups, peek, hd, ha]
  · have ha1 := atoi_digit d1 '+' (d2 :: ')' :: rest) hd1 (by decide)
    have ha2 := atoi_digit d2 ')' rest hd2 (by decide)
    simp [aToGroups, peek, hd1, hd2, ha1, ha2]
  · have ha := atoi_digit d '+' ('L' :: 'F' :: 'l' :: ')' :: rest) hd (by decide)
    simp [aToGroups, peek, hd, ha, hL]
  · intro text htext
    cases text with
    | nil => simp [aToGroups, peek, NUL]
    | cons c cs =>
      have hc : c ≠ '(' := by simpa using htext
      simp [aToGroups, peek, hc]

/-- C11, at "(4+5)", "(4+LFl)", "(3)" and the empty text. -/
theorem aToGroups_shapes_witness :
    aToGroups "(3)".toList = .ok (4, 3, 0)
    ∧ aToGroups "(4+5)".toList = .ok (6, 4, 5)
    ∧ aToGroups "(4+LFl)".toList = .ok (8, 4, -1)
    ∧ aToGroups "".toList = .ok (0, 1, 0) :=
  ⟨(aToGroups_shapes '3' '4' '5' [] (by decide) (by decide) (by decide)).1.trans (by decide),
    (aToGroups_shapes '3' '4' '5' [] (by decide) (by decide) (by decide)).2.1.trans (by decide),
    (aToGroups_shapes '4' '4' '5' [] (by decide) (by decide) (by decide)).2.2.1.trans
      (by decide),
    (aToGroups_shapes '4' '4' '5' [] (by decide) (by decide) (by decide)).2.2.2 [] (by decide)⟩

/-! ## C12: the descriptor of the grouped classes -/

/-- C12. For every class token `K` among Q, VQ, UQ, Fl, L.Fl, Oc, every
well-formed group qualifier `G` (or none, for Fl, L.Fl and Oc), every colour
letter `c` among R, G, Y, W and every decimal numeral of a number of seconds
`1 ≤ N ≤ 30`: `parse` on `K G c Ns` calls `flash` with the group counts of
`G` (1 and 0 when there is none), the period `N * 1000`, the on and off times
of the class (500/500 for Q, 250/250 for VQ, 125/125 for UQ, 500/1500 for Fl
and Oc, 2000/2000 for L.Fl) and the colours (colour of `c`, off), swapped for
Oc; and the call returns a colour at every tick count. -/
theorem parse_grouped_descriptor (K : GroupedClass) (G : GroupQualifier) (hG : G.wellFormed)
    (hKG : G = .absent → K.qualifierOptional = true)
    (c : Char) (hc : c ∈ ['R', 'G', 'Y', 'W'])
    (ds : List Char) (hne : ds ≠ []) (hdig : ∀ d ∈ ds, isdigit d = true)
    (hlen : ds.length ≤ 14) (hN1 : 1 ≤ numeralValue ds) (hN : numeralValue ds ≤ 30) :
    parseCall (K.text ++ (G.text ++ c :: ' ' :: (ds ++ ['s'])))
        = .ok (some (.flash (K.onColor (charToColor c)) (K.offColor (charToColor c))
            G.group1 G.group2 K.onTime K.offTime ((numeralValue ds * 1000 : Nat) : Int)))
    ∧ (K.onTime, K.offTime) = (match K with
        | .Q => (500, 500)
        | .VQ => (250, 250)
        | .UQ => (125, 125)
        | .Fl => (500, 1500)
        | .LFl => (2000, 2000)
        | .Oc => (500, 1500))
    ∧ (K.onColor (charToColor c), K.offColor (charToColor c))
        = (if K = .Oc then (OFF, charToColor c) else (charToColor c, OFF))
    ∧ ∀ t : Nat, ∃ col : Nat,
        parse t (K.text ++ (G.text ++ c :: ' ' :: (ds ++ ['s']))) = .ok (some col) := by
  have hne' := colour_letter_ne_paren c hc
  have hK := groupedClass_text_le K
  have hGl := groupQualifier_text_le G
  have hper := aToPeriod_seconds ds hne hdig (by omega)
  have hcall := parseCall_grouped K G hG hKG c hne' (ds ++ ['s']) _ hper (by
    simp only [List.length_append, List.length_cons, List.length_nil]; omega)
  refine ⟨hcall, ?_, ?_, ?_⟩
  · cases K <;> rfl
  · cases K <;> simp [GroupedClass.onColor, GroupedClass.offColor]
  · intro t
    rw [parse_of_call t _ _ hcall]
    have hg2 := G.group2_lower
    cases K
    · obtain ⟨col, hcol⟩ := flash_defined t (charToColor c) OFF G.group1 G.group2 500 500
        (numeralValue ds * 1000) (by omega) (by omega) (by omega) (by omega) hg2
      exact ⟨col, congrArg (Except.map some) hcol⟩
    · obtain ⟨col, hcol⟩ := flash_defined t (charToColor c) OFF G.group1 G.group2 250 250
        (numeralValue ds * 1000) (by omega) (by omega) (by omega) (by omega) hg2
      exact ⟨col, congrArg (Except.map some) hcol⟩
    · obtain ⟨col, hcol⟩ := flash_defined t (charToColor c) OFF G.group1 G.group2 125 125
        (numeralValue ds * 1000) (by omega) (by omega) (by omega) (by omega) hg2
      exact ⟨col, congrArg (Except.map some) hcol⟩
    · obtain ⟨col, hcol⟩ := flash_defined t (charToColor c) OFF G.group1 G.group2 500 1500
        (numeralValue ds * 1000) (by omega) (by omega) (by omega) (by omega) hg2
      exact ⟨col, congrArg (Except.map some) hcol⟩
    · obtain ⟨col, hcol⟩ := flash_defined t (charToColor c) OFF G.group1 G.group2 2000 2000
        (numeralValue ds * 1000) (by omega) (by omega) (by omega) (by omega) hg2
      exact ⟨col, congrArg (Except.map some) hcol⟩
    · obtain ⟨col, hcol⟩ := flash_defined t OFF (charToColor c) G.group1 G.group2 500 1500
        (numeralValue ds * 1000) (by omega) (by omega) (by omega) (by omega) hg2
      exact ⟨col, congrArg (Except.map some) hcol⟩

/-- C12, at "Fl (4+5) G 30s": groups (4, 5), green and off, 500/1500, period
30000. -/
theorem parse_grouped_descriptor_witness :
    parseCall "Fl (4+5) G 30s".toList = .ok (some (.flash GREEN OFF 4 5 500 1500 30000)) :=
  (parse_grouped_descriptor .Fl (.composite '4' '5') (by decide) (fun _ => rfl) 'G' (by decide)
    ['3', '0'] (by decide) (by decide) (by decide) (by decide) (by decide)).1.trans (by decide)

/-! ## C13: the length guard -/

/-- C13. For every string shorter than 2 or longer than 30 characters,
whatever its content, the tick count and the pixel index: `parse` calls no
evaluator and writes no pixel, so that the strip is left as it was (and a
pixel of the cleared strip stays off). -/
theorem parse_length_guard (str : List Char) (hlen : str.length < 2 ∨ 30 < str.length)
    (count : Nat) (led_idx : Int) (strip : Strip) :
    parseCall str = .ok none
    ∧ parse count str = .ok none
    ∧ stripAfter count led_idx str strip = strip
    ∧ ∀ j : Nat, stripAfter count led_idx str (clear strip) j = OFF := by
  have hcall : parseCall str = .ok none := by
    unfold parseCall
    simp only []
    rw [if_pos hlen]
  have hparse : parse count str = .ok none := by
    unfold parse; rw [hcall]
  have hstrip : ∀ s : Strip, stripAfter count led_idx str s = s := by
    intro s; unfold stripAfter; rw [hparse]
  exact ⟨hcall, hparse, hstrip strip, fun j => by rw [hstrip]; rfl⟩

/-- C13, at a string of length 1 and a string of length 35. -/
theorem parse_length_guard_witness :
    ("Q".length = 1 ∧ "Fl (4+5) G 30s and thirty-five char".length = 35)
    ∧ (parseCall "Q".toList = .ok none
      ∧ parse 0 "Q".toList = .ok none
      ∧ stripAfter 0 3 "Q".toList (clear (fun _ => RED)) = clear (fun _ => RED)
      ∧ ∀ j : Nat, stripAfter 0 3 "Q".toList (clear (clear (fun _ => RED))) j = OFF)
    ∧ (parseCall "Fl (4+5) G 30s and thirty-five char".toList = .ok none
      ∧ parse 700 "Fl (4+5) G 30s and thirty-five char".toList = .ok none
      ∧ stripAfter 700 3 "Fl (4+5) G 30s and thirty-five char".toList (fun _ => RED)
          = (fun _ => RED)
      ∧ ∀ j : Nat, stripAfter 700 3 "Fl (4+5) G 30s and thirty-five char".toList
          (clear (fun _ => RED)) j = OFF) :=
  ⟨by decide,
    parse_length_guard "Q".toList (by decide) 0 3 (clear (fun _ => RED)),
    parse_length_guard "Fl (4+5) G 30s and thirty-five char".toList (by decide) 700 3
      (fun _ => RED)⟩

/-! ## C14: strings outside the grammar -/

/-- C14. The code at "Qx R 5s", a string of 7 characters that matches none of
the prefix forms of the grammar: the branch of `Q` is taken although `Q` is
not followed by a blank, `flash` is called with the error colour and a period
of 5000, and the pixel is written magenta at count 0.  At "Qx" the same
branch reads the string past its terminator. -/
theorem parse_unrecognised_quick :
    parseCall "Qx R 5s".toList = .ok (some (.flash MAGENTA OFF 1 0 500 500 5000))
    ∧ parse 0 "Qx R 5s".toList = .ok (some MAGENTA)
    ∧ stripAfter 0 3 "Qx R 5s".toList (clear (fun _ => OFF)) 3 = MAGENTA
    ∧ MAGENTA ≠ OFF
    ∧ parse 0 "Qx".toList = .error .outOfBounds := by decide

/-! ## C15: a malformed duration -/

/-- C15. The code at "Fl G x": the duration parser returns 0, `flash` is
called with the period 0, and its first statement `count % period` is a
modulo by zero.  The same holds for the isophase and the Morse branch. -/
theorem parse_malformed_duration :
    aToPeriod "x".toList = .ok 0
    ∧ parseCall "Fl G x".toList = .ok (some (.flash GREEN OFF 1 0 500 1500 0))
    ∧ flash 0 GREEN OFF 1 0 500 1500 0 = .error .divByZero
    ∧ parse 0 "Fl G x".toList = .error .divByZero
    ∧ parse 0 "Iso R x".toList = .error .divByZero
    ∧ parse 0 "Mo (A) W x".toList = .error .divByZero := by decide

/-! ## C16: fixed lights and the colour resolver -/

/-- C16. For every character `c` and every tick count, `parse` on "F c"
writes `charToColor c`; `charToColor` maps R, G, Y, W to red, green, yellow,
white and every other character to magenta; these five colours and off are
pairwise distinct. -/
theorem fixed_light (c : Char) (count : Nat) :
    parseCall ['F', ' ', c] = .ok (some (.fixed (charToColor c)))
    ∧ parse count ['F', ' ', c] = .ok (some (charToColor c))
    ∧ (∀ led_idx : Nat, led_idx < LED_COUNT → ∀ strip : Strip,
        stripAfter count led_idx ['F', ' ', c] strip led_idx = charToColor c)
    ∧ charToColor 'R' = RED ∧ charToColor 'G' = GREEN
    ∧ charToColor 'Y' = YELLOW ∧ charToColor 'W' = WHITE
    ∧ (c ∉ ['R', 'G', 'Y', 'W'] → charToColor c = MAGENTA)
    ∧ [RED, GREEN, YELLOW, WHITE, MAGENTA, OFF].Nodup := by
  have hcall : parseCall ['F', ' ', c] = .ok (some (.fixed (charToColor c))) := by
    simp [parseCall, peek]
  have hparse : parse count ['F', ' ', c] = .ok (some (charToColor c)) := by
    rw [parse_of_call count _ _ hcall]; rfl
  refine ⟨hcall, hparse, ?_, by decide, by decide, by decide, by decide, ?_, by decide⟩
  · intro led_idx hidx strip
    unfold stripAfter
    rw [hparse]
    have hu : toUnsigned (led_idx : Int) = led_idx :=
      toUnsigned_natCast led_idx (by unfold LED_COUNT at hidx; omega)
    simp only [setPixelColor]
    rw [hu, if_pos hidx, Function.update_same]
  · intro hc
    simp only [List.mem_cons, List.mem_singleton, List.not_mem_nil, or_false, not_or] at hc
    obtain ⟨h1, h2, h3, h4⟩ := hc
    simp [charToColor, h1, h2, h3, h4]

/-! ## C17: a group count of zero -/

theorem activeColor_zero (q s : Nat) (on_time sub_period : Int) (a b : Nat)
    (hq : q < 32768) :
    activeColor q (toInt (q / s)) 0 on_time sub_period a b = b := by
  have hqs : q / s < 32768 := lt_of_le_of_lt (Nat.div_le_self q s) hq
  have hneg : ¬ (((q / s : Nat) : Int) < 0) := not_lt.mpr (Int.ofNat_nonneg _)
  unfold activeColor
  rw [toInt_of_lt _ hqs]
  simp only [hneg, if_false, ite_self]

/-- C17. For every flash pattern with period `P > 0` and sub-period
`on_time + off_time > 0` (both `int`s, hence at most 32767) and every tick
count: if the position `count % P` lies in the second half and `group2 = 0`,
`flash` writes `off_color`; if it lies in the first half and `group1 = 0`,
`flash` writes `off_color`. -/
theorem flash_zero_group (count on_color off_color : Nat)
    (group1 group2 on_time off_time : Int) (P : Nat) (hP : 0 < P) (hPmax : P ≤ 32767)
    (hS : 0 < on_time + off_time) (hSmax : on_time + off_time ≤ 32767) :
    (P ≤ 2 * (count % P) → group2 = 0 →
      flash count on_color off_color group1 group2 on_time off_time (P : Int) = .ok off_color)
    ∧ (2 * (count % P) < P → group1 = 0 →
      flash count on_color off_color group1 group2 on_time off_time (P : Int)
        = .ok off_color) := by
  have hpos : count % P < P := Nat.mod_lt _ hP
  have hu : toUnsigned (on_time + off_time) ≠ 0 := by unfold toUnsigned; omega
  have hm : (count % P * 2) % 65536 = count % P * 2 := Nat.mod_eq_of_lt (by omega)
  constructor
  · intro hhalf hg
    subst hg
    have hP2 : 0 < P / 2 := by omega
    have hq : count % P % (P / 2) < P / 2 := Nat.mod_lt _ hP2
    unfold flash
    rw [toUnsigned_natCast P (by omega), if_neg (by omega),
      checkInt_of_range _ (by omega) hSmax]
    simp only [UINT_SIZE]
    rw [if_neg hu, hm, if_pos (by omega)]
    simp only [show ¬ ((0 : Int) < 0) from by decide, if_false, tdiv_two_natCast,
      toUnsigned_natCast (P / 2) (by omega : P / 2 < 65536)]
    rw [if_neg (by omega), activeColor_zero _ _ _ _ _ _ (by omega)]
  · intro hhalf hg
    subst hg
    unfold flash
    rw [toUnsigned_natCast P (by omega), if_neg (by omega),
      checkInt_of_range _ (by omega) hSmax]
    simp only [UINT_SIZE]
    rw [if_neg hu, hm, if_neg (by omega), activeColor_zero _ _ _ _ _ _ (by omega)]

/-- C17, at "Fl (2) G 6s" (second half, group2 = 0) and at a first group of
0 flashes. -/
theorem flash_zero_group_witness :
    flash 3100 GREEN OFF 2 0 500 1500 ((6000 : Nat) : Int) = .ok OFF
    ∧ flash 100 GREEN OFF 0 3 500 1500 ((6000 : Nat) : Int) = .ok OFF :=
  ⟨(flash_zero_group 3100 GREEN OFF 2 0 500 1500 6000 (by decide) (by decide) (by decide)
      (by decide)).1 (by decide) rfl,
    (flash_zero_group 100 GREEN OFF 0 3 500 1500 6000 (by decide) (by decide) (by decide)
      (by decide)).2 (by decide) rfl⟩

/-! ## C18: parsing the buffer again -/

theorem skipSpace_append_s (u : List Char) :
    skipSpace (u ++ ['s']) = skipSpace u ++ ['s'] := by
  induction u with
  | nil => simp [skipSpace]; decide
  | cons c cs ih =>
    by_cases hc : isspace c = true
    · simp [skipSpace, hc, ih]
    · simp [skipSpace, hc]

theorem scanSign_append_s (v : List Char) :
    scanSign (v ++ ['s']) = ((scanSign v).1, (scanSign v).2 ++ ['s']) := by
  cases v with
  | nil => simp [scanSign]
  | cons c cs =>
    by_cases h1 : c = '-'
    · simp [scanSign, h1]
    · by_cases h2 : c = '+'
      · simp [scanSign, h2]
      · simp [scanSign, h1, h2]

theorem scanDigits_append_s (v : List Char) (acc n : Nat) :
    scanDigits (v ++ ['s']) acc n
      = ((scanDigits v acc n).1, (scanDigits v acc n).2.1, (scanDigits v acc n).2.2 ++ ['s']) := by
  induction v generalizing acc n with
  | nil => simp [scanDigits]; decide
  | cons c cs ih =>
    by_cases hc : isdigit c = true
    · simp [scanDigits, hc, ih]
    · simp [scanDigits, hc]

/-- A letter `s` after a text is never part of the decimal number read. -/
theorem readDecimal_append_s (u : List Char) : readDecimal (u ++ ['s']) = readDecimal u := by
  unfold readDecimal
  rw [skipSpace_append_s, scanSign_append_s]
  rcases hs : scanSign (skipSpace u) with ⟨neg, s0⟩
  simp only []
  rw [scanDigits_append_s]
  rcases h1 : scanDigits s0 0 0 with ⟨m1, n1, s1⟩
  simp only []
  cases s1 with
  | nil =>
    simp only [List.nil_append]
    have hs' : ('s' : Char) ≠ '.' := by decide
    have he : ¬ (('s' : Char) = 'e' ∨ ('s' : Char) = 'E') := by decide
    simp only [hs', if_false, he]
  | cons c cs =>
    simp only [List.cons_append]
    by_cases hdot : c = '.'
    · simp only [hdot, if_true]
      rw [scanDigits_append_s]
      rcases h2 : scanDigits cs m1 0 with ⟨m2, n2, s2⟩
      simp only []
      cases s2 with
      | nil =>
        have he : ¬ (('s' : Char) = 'e' ∨ ('s' : Char) = 'E') := by decide
        simp only [List.nil_append, he, if_false]
      | cons e es =>
        simp only [List.cons_append]
        rw [scanSign_append_s]
        rcases h3 : scanSign es with ⟨eneg, t⟩
        simp only []
        rw [scanDigits_append_s]
    · simp only [hdot, if_false]
      rw [scanSign_append_s]
      rcases h3 : scanSign cs with ⟨eneg, t⟩
      simp only []
      rw [scanDigits_append_s]

theorem scanHex_append_s (v : List Char) (acc n : Nat) :
    scanHex (v ++ ['s']) acc n
      = ((scanHex v acc n).1, (scanHex v acc n).2.1, (scanHex v acc n).2.2 ++ ['s']) := by
  induction v generalizing acc n with
  | nil =>
    have hs : hexDigit 's' = none := by decide
    simp [scanHex, hs]
  | cons c cs ih =>
    cases hc : hexDigit c with
    | none => simp [scanHex, hc]
    | some v => simp [scanHex, hc, ih]

/-- A letter `s` after a text is never part of the hexadecimal number read. -/
theorem readHex_append_s (t : List Char) : readHex (t ++ ['s']) = readHex t := by
  rcases t with _ | ⟨z, _ | ⟨x, rest⟩⟩
  · rfl
  · have hx : ¬ (('s' : Char) = 'x' ∨ ('s' : Char) = 'X') := by decide
    simp [readHex, hx]
  · simp only [List.cons_append, readHex]
    by_cases hc : z = '0' ∧ (x = 'x' ∨ x = 'X')
    · rw [if_pos hc, if_pos hc, scanHex_append_s]
      rcases h1 : scanHex rest 0 0 with ⟨m1, n1, s1⟩
      simp only []
      cases s1 with
      | nil =>
        simp only [List.nil_append]
        have hs' : ('s' : Char) ≠ '.' := by decide
        have he : ¬ (('s' : Char) = 'p' ∨ ('s' : Char) = 'P') := by decide
        simp only [hs', if_false, he]
      | cons c cs =>
        simp only [List.cons_append]
        by_cases hdot : c = '.'
        · simp only [hdot, if_true]
          rw [scanHex_append_s]
          rcases h2 : scanHex cs m1 0 with ⟨m2, n2, s2⟩
          simp only []
          cases s2 with
          | nil =>
            have he : ¬ (('s' : Char) = 'p' ∨ ('s' : Char) = 'P') := by decide
            simp only [List.nil_append, he, if_false]
          | cons e es =>
            simp only [List.cons_append]
            rw [scanSign_append_s]
            rcases h3 : scanSign es with ⟨eneg, u⟩
            simp only []
            rw [scanDigits_append_s]
        · simp only [hdot, if_false]
          rw [scanSign_append_s]
          rcases h3 : scanSign cs with ⟨eneg, u⟩
          simp only []
          rw [scanDigits_append_s]
    · rw [if_neg hc, if_neg hc]

theorem startsInf_append_s (t : List Char) : startsInf (t ++ ['s']) = startsInf t := by
  rcases t with _ | ⟨a, _ | ⟨b, _ | ⟨c, r⟩⟩⟩ <;> simp [startsInf]

theorem startsNan_append_s (t : List Char) : startsNan (t ++ ['s']) = startsNan t := by
  rcases t with _ | ⟨a, _ | ⟨b, _ | ⟨c, r⟩⟩⟩ <;> simp [startsNan]

/-- A letter `s` after a text is never part of the number `atof` reads. -/
theorem atof_append_s (u : List Char) : atof (u ++ ['s']) = atof u := by
  unfold atof
  rw [skipSpace_append_s, scanSign_append_s, readDecimal_append_s]
  rcases hs : scanSign (skipSpace u) with ⟨neg, t⟩
  simp only []
  rw [startsInf_append_s, startsNan_append_s, readHex_append_s]

/-- The text `aToPeriod` leaves in the buffer has the value of the text it
was given. -/
theorem atof_store (u : List Char) : atof (aToPeriodStore u) = atof u := by
  unfold aToPeriodStore
  by_cases h : u.length > 0 ∧ u.getLast? = some 's'
  · simp only [h, and_self, if_true]
    have hu : u.dropLast ++ ['s'] = u := List.dropLast_append_getLast? 's' (by simp [h.2])
    conv_rhs => rw [← hu]
    rw [atof_append_s]
  · simp only [h, if_false]

theorem aToPeriod_store (t : List Char) : aToPeriod (aToPeriodStore t) = aToPeriod t := by
  unfold aToPeriod
  rw [atof_store (aToPeriodStore t)]

theorem aToPeriod_append_s (x : List Char) : aToPeriod (x ++ ['s']) = aToPeriod x := by
  have hstore : aToPeriodStore (x ++ ['s']) = x := by simp [aToPeriodStore]
  unfold aToPeriod
  rw [hstore, atof_store x]

theorem aToPeriodStore_length_le (t : List Char) : (aToPeriodStore t).length ≤ t.length := by
  unfold aToPeriodStore
  simp only []
  split_ifs <;> simp

/-- The evaluator call and the text handed to `aToPeriod` for a well-formed
characteristic string with an arbitrary period text. -/
theorem parseCall_of_form (p : PeriodForm) (hp : p.wellFormed) (per : List Char)
    (hlen : (p.text ++ per).length ≤ 30) :
    parseCall (p.text ++ per) = (aToPeriod per).map (fun P => some (p.call P))
    ∧ periodText (p.text ++ per) = .ok (some per) := by
  cases p with
  | iso c =>
    simp only [PeriodForm.text, List.cons_append, List.nil_append, List.length_cons] at hlen ⊢
    constructor
    · unfold parseCall
      simp only [List.length_cons]
      rw [if_neg (by omega)]
      cases hper : aToPeriod per with
      | error e =>
        simp [peek, rd, advance, hper, bind, Except.bind, Except.map]
      | ok P =>
        simp [peek, rd, advance, hper, bind, Except.bind, pure, Except.pure, Except.map,
          PeriodForm.call]
    · unfold periodText
      simp only [List.length_cons]
      rw [if_neg (by omega)]
      simp [peek, rd, advance, bind, Except.bind, pure, Except.pure]
  | grouped K G c =>
    obtain ⟨hG, hKG, hc⟩ := hp
    have hne := colour_letter_ne_paren c hc
    have htext : (PeriodForm.grouped K G c).text ++ per
        = K.text ++ (G.text ++ c :: ' ' :: per) := by
      simp [PeriodForm.text, List.append_assoc]
    rw [htext] at hlen ⊢
    have hbranch : K.qualifierOptional = true ∨ (G.text ++ c :: ' ' :: per).head? = some '(' := by
      cases G with
      | absent => exact Or.inl (hKG rfl)
      | single d => right; simp [GroupQualifier.text]
      | composite d1 d2 => right; simp [GroupQualifier.text]
      | longFlash d => right; simp [GroupQualifier.text]
    obtain ⟨hargs, htail⟩ := groupArgs_tail_any K.text G hG c ' ' hne per
    constructor
    · rw [parseCall_grouped_dispatch K _ hbranch hlen, hargs]
      cases aToPeriod per with
      | error e => rfl
      | ok P => rfl
    · rw [periodText_grouped_dispatch K _ hbranch hlen, htail]
      rfl
  | morse L c =>
    simp only [PeriodForm.text, List.cons_append, List.nil_append, List.length_cons] at hlen ⊢
    constructor
    · unfold parseCall
      simp only [List.length_cons]
      rw [if_neg (by omega)]
      cases hper : aToPeriod per with
      | error e =>
        simp [peek, rd, advance, hper, bind, Except.bind, Except.map]
      | ok P =>
        simp [peek, rd, advance, hper, bind, Except.bind, pure, Except.pure, Except.map,
          PeriodForm.call]
    · unfold periodText
      simp only [List.length_cons]
      rw [if_neg (by omega)]
      simp [peek, rd, advance, bind, Except.bind, pure, Except.pure]

/-- The buffer after `parse` on a well-formed characteristic string: the
period text is replaced by what `aToPeriod` leaves of it. -/
theorem parseStore_of_form (p : PeriodForm) (hp : p.wellFormed) (per : List Char)
    (hlen : (p.text ++ per).length ≤ 30) :
    parseStore (p.text ++ per) = p.text ++ aToPeriodStore per := by
  unfold parseStore
  rw [(parseCall_of_form p hp per hlen).2]
  simp

/-- A string the length check of `parse` turns away is left as it is. -/
theorem parseStore_long (str : List Char) (hlen : 30 < str.length) : parseStore str = str := by
  unfold parseStore periodText
  simp only []
  rw [if_pos (Or.inr hlen)]

theorem parseStore_iterate (p : PeriodForm) (hp : p.wellFormed) (n : Nat) :
    ∀ per : List Char, (p.text ++ per).length ≤ 30 →
      Nat.iterate parseStore n (p.text ++ per) = p.text ++ Nat.iterate aToPeriodStore n per := by
  induction n with
  | zero => intro per _; rfl
  | succ n ih =>
    intro per hlen
    have hle := aToPeriodStore_length_le per
    have hlen' : (p.text ++ aToPeriodStore per).length ≤ 30 := by
      simp only [List.length_append] at hlen ⊢; omega
    rw [Function.iterate_succ_apply, Function.iterate_succ_apply,
      parseStore_of_form p hp per hlen, ih _ hlen']

theorem aToPeriodStore_iterate (n : Nat) :
    ∀ per : List Char, (Nat.iterate aToPeriodStore n per).length ≤ per.length
      ∧ aToPeriod (Nat.iterate aToPeriodStore n per) = aToPeriod per := by
  induction n with
  | zero => intro per; exact ⟨le_refl _, rfl⟩
  | succ n ih =>
    intro per
    have hle := aToPeriodStore_length_le per
    obtain ⟨h1, h2⟩ := ih (aToPeriodStore per)
    rw [Function.iterate_succ_apply]
    exact ⟨le_trans h1 hle, h2.trans (aToPeriod_store per)⟩

/-- C18. `aToPeriod` overwrites a trailing `s` of its buffer, and for every
well-formed characteristic string of a class with a period (isophase, the
grouped classes, Morse; any period text): when the string passes the length
check, the first call of `parse` leaves it with the period text so edited; on
the buffer left by any number `n` of calls, `parse` makes the evaluator call
it made on the original string, with the same arguments, and gives the same
result at every tick count.  The strings of the classes without a period
("Q c", "VQ c", "UQ c", "F c") are left as they are.  And
`aToPeriod (x ++ "s") = aToPeriod x` for every text `x`. -/
theorem reparse_same_call (p : PeriodForm) (hp : p.wellFormed) (per : List Char)
    (n count : Nat) :
    ((p.text ++ per).length ≤ 30 → parseStore (p.text ++ per) = p.text ++ aToPeriodStore per)
    ∧ parseCall (Nat.iterate parseStore n (p.text ++ per)) = parseCall (p.text ++ per)
    ∧ parse count (Nat.iterate parseStore n (p.text ++ per)) = parse count (p.text ++ per)
    ∧ (∀ c : Char, c ∈ ['R', 'G', 'Y', 'W'] →
        parseStore ['Q', ' ', c] = ['Q', ' ', c]
        ∧ parseStore ['V', 'Q', ' ', c] = ['V', 'Q', ' ', c]
        ∧ parseStore ['U', 'Q', ' ', c] = ['U', 'Q', ' ', c]
        ∧ parseStore ['F', ' ', c] = ['F', ' ', c])
    ∧ ∀ x : List Char, aToPeriod (x ++ ['s']) = aToPeriod x := by
  have hcall : parseCall (Nat.iterate parseStore n (p.text ++ per))
      = parseCall (p.text ++ per) := by
    by_cases hlen : (p.text ++ per).length ≤ 30
    · obtain ⟨hle, hval⟩ := aToPeriodStore_iterate n per
      have hlen' : (p.text ++ Nat.iterate aToPeriodStore n per).length ≤ 30 := by
        simp only [List.length_append] at hlen ⊢; omega
      rw [parseStore_iterate p hp n per hlen, (parseCall_of_form p hp _ hlen').1,
        (parseCall_of_form p hp per hlen).1, hval]
    · rw [Function.iterate_fixed (parseStore_long _ (by omega)) n]
  refine ⟨parseStore_of_form p hp per, hcall, ?_, ?_, aToPeriod_append_s⟩
  · unfold parse; rw [hcall]
  · intro c hc
    have hne := colour_letter_ne_paren c hc
    refine ⟨?_, ?_, ?_, ?_⟩ <;> simp [parseStore, periodText, peek, hne]

/-- C18, at "Fl R 4s": the first call leaves "Fl R 4" in the buffer, and the
call made on the buffer after two calls is the call made on "Fl R 4s". -/
theorem reparse_same_call_witness :
    parseStore "Fl R 4s".toList = "Fl R 4".toList
    ∧ parseCall (Nat.iterate parseStore 2 "Fl R 4s".toList)
        = .ok (some (.flash RED OFF 1 0 500 1500 4000))
    ∧ parseCall "Fl R 4s".toList = .ok (some (.flash RED OFF 1 0 500 1500 4000))
    ∧ aToPeriod "4s".toList = aToPeriod "4".toList :=
  ⟨((reparse_same_call (.grouped .Fl .absent 'R') ⟨by decide, fun _ => rfl, by decide⟩
      "4s".toList 2 0).1 (by decide)).trans (by decide),
    (reparse_same_call (.grouped .Fl .absent 'R') ⟨by decide, fun _ => rfl, by decide⟩
      "4s".toList 2 0).2.1.trans (by decide),
    by decide,
    (reparse_same_call (.grouped .Fl .absent 'R') ⟨by decide, fun _ => rfl, by decide⟩
      "4s".toList 2 0).2.2.2.2 "4".toList⟩

/-! ## C19: a group qualifier outside the three shapes -/

/-- C19. The code at "(12)": the text starts with `(` and a digit and matches
none of the three shapes, and `aToGroups` reaches its end without a `return`
statement; so does `parse` on "Fl (12) G 3s". -/
theorem aToGroups_two_digits :
    aToGroups "(12)".toList = .error .noReturn
    ∧ aToGroups "(12) G 3s".toList = .error .noReturn
    ∧ parseCall "Fl (12) G 3s".toList = .error .noReturn
    ∧ parse 0 "Fl (12) G 3s".toList = .error .noReturn := by decide

/-! ## C20: the other pixels -/

/-- A write to the pixel `led_idx` leaves every other pixel as it was. -/
theorem setPixelColor_other (strip : Strip) (led_idx : Int) (color : Nat)
    (hidx : INT_MIN ≤ led_idx ∧ led_idx ≤ INT_MAX) (j : Nat) (hj : (j : Int) ≠ led_idx) :
    setPixelColor strip led_idx color j = strip j := by
  unfold setPixelColor
  by_cases hlt : toUnsigned led_idx < LED_COUNT
  · rw [if_pos hlt]
    have hne : j ≠ toUnsigned led_idx := by
      unfold toUnsigned LED_COUNT at *
      unfold INT_MIN INT_MAX at hidx
      omega
    exact Function.update_noteq hne _ _
  · rw [if_neg hlt]

/-- On every execution of `parse(count, led_idx, str)` that stays inside the
behaviour C defines, every pixel `j` other than `led_idx` has after the call
the colour it had before; and the strip of such an execution is the one
`stripAfter` gives. -/
theorem parseOn_frame (strip strip' : Strip) (count : Nat) (led_idx : Int) (str : List Char)
    (hidx : INT_MIN ≤ led_idx ∧ led_idx ≤ INT_MAX)
    (h : parseOn strip count led_idx str = .ok strip') :
    (∀ j : Nat, (j : Int) ≠ led_idx → strip' j = strip j)
    ∧ stripAfter count led_idx str strip = strip' := by
  unfold parseOn at h
  unfold stripAfter parse
  cases hc : parseCall str with
  | error e => rw [hc] at h; cases h
  | ok r =>
    rw [hc] at h
    cases r with
    | none =>
      simp only [] at h ⊢
      cases h
      exact ⟨fun _ _ => rfl, rfl⟩
    | some call =>
      simp only [] at h ⊢
      have key : ∀ res : Except UB Nat,
          res.map (fun c => setPixelColor strip led_idx c) = .ok strip' →
          (∀ j : Nat, (j : Int) ≠ led_idx → strip' j = strip j)
          ∧ (match res.map some with
              | .ok (some color) => setPixelColor strip led_idx color
              | .ok none => strip
              | .error _ => strip) = strip' := by
        intro res hres
        cases res with
        | error e => cases hres
        | ok c =>
          cases hres
          exact ⟨fun j hj => setPixelColor_other strip led_idx c hidx j hj, rfl⟩
      cases call with
      | fixed color => exact key (fixed count color) h
      | flash on_color off_color group1 group2 on_time off_time period =>
        exact key (flash count on_color off_color group1 group2 on_time off_time period) h
      | morse color ch period => exact key (morse count color ch period) h

/-- The frame of `parse` at "Fl R 4s" written to pixel 3: the call is defined,
pixel 4 keeps its colour, and pixel 3 is red at count 0. -/
theorem parseOn_frame_example :
    parseOn (fun _ => GREEN) 0 3 "Fl R 4s".toList = .ok (setPixelColor (fun _ => GREEN) 3 RED)
    ∧ (∀ j : Nat, (j : Int) ≠ 3 → setPixelColor (fun _ => GREEN) 3 RED j = GREEN)
    ∧ setPixelColor (fun _ => GREEN) 3 RED 3 = RED := by
  have hcall : parseCall "Fl R 4s".toList = .ok (some (.flash RED OFF 1 0 500 1500 4000)) := by
    decide
  have hflash : flash 0 RED OFF 1 0 500 1500 4000 = .ok RED := by decide
  have hrun : parseOn (fun _ => GREEN) 0 3 "Fl R 4s".toList
      = .ok (setPixelColor (fun _ => GREEN) 3 RED) := by
    unfold parseOn
    rw [hcall]
    simp only [execCallOn, hflash, Except.map]
  exact ⟨hrun, (parseOn_frame _ _ 0 3 _ (by decide) hrun).1, by decide⟩

/-- C20. The code at "Oc", a string of two characters: it passes the length
check, the occulting branch is taken on its two letters, and the pointer is
moved three characters on, past the terminator; `aToGroups` then reads, and
`aToPeriod` reads and may write, outside the string, so that the call has no
defined effect on the strip, whatever the strip, the tick count and the pixel
index.  Likewise "Oc G 0s" reaches the modulo by the period 0 in `flash`
before any pixel is written. -/
theorem parse_frame_malformed :
    "Oc".length = 2
    ∧ advance "Oc".toList 3 = .error .outOfBounds
    ∧ parseCall "Oc".toList = .error .outOfBounds
    ∧ (∀ (strip : Strip) (count : Nat) (led_idx : Int),
        parseOn strip count led_idx "Oc".toList = .error .outOfBounds)
    ∧ (∀ (strip : Strip) (count : Nat) (led_idx : Int),
        parseOn strip count led_idx "Oc G 0s".toList = .error .divByZero) := by
  have h1 : parseCall "Oc".toList = .error .outOfBounds := by decide
  have h2 : parseCall "Oc G 0s".toList = .ok (some (.flash OFF GREEN 1 0 500 1500 0)) := by
    decide
  refine ⟨by decide, by decide, h1, ?_, ?_⟩
  · intro strip count led_idx
    unfold parseOn
    rw [h1]
  · intro strip count led_idx
    have hflash : flash count OFF GREEN 1 0 500 1500 0 = .error .divByZero := by
      unfold flash
      rw [if_pos (by decide)]
    unfold parseOn
    rw [h2]
    simp only [execCallOn, hflash, Except.map]

end NauticalNeopixel
